import Mathlib

/-!
# file_tools: statistics aggregation, size classification and size formatting

A shallow embedding of `src/file_tools.cpp` and the parts of `src/pch.h` it uses.

* `umax` (`uintmax_t`) values are natural numbers; every arithmetic result that is
  stored in a `umax` is reduced modulo `2 ^ 64`.
* `std::unordered_map<K, Stats>` is an association list with unique keys; the
  iteration order of the C++ container is unspecified, the list order stands for it.
* `std::sort` is a parameter, constrained only by its contract (the result is a
  permutation of the input, ordered with respect to the comparator); `stdSort` is
  one executable implementation of it.
-/

namespace FileTools

/-! ## Data model -/

/-- The enumeration `std::filesystem::file_type` (MSVC adds `junction`). -/
inductive file_type where
  | none | not_found | regular | directory | symlink | block
  | character | fifo | socket | unknown | junction
  deriving DecidableEq, Repr

/-- The accumulator `struct Stats`: three `umax` fields, all zero initially. -/
structure Stats where
  count : Nat := 0
  size : Nat := 0
  ondisk : Nat := 0
  deriving DecidableEq, Repr

/-- `Stats::Add`: `count++; size+=bytes; ondisk+=disk;` in 64-bit unsigned arithmetic. -/
def Stats.Add (s : Stats) (bytes disk : Nat) : Stats :=
  { count := (s.count + 1) % 2 ^ 64
    size := (s.size + bytes) % 2 ^ 64
    ondisk := (s.ondisk + disk) % 2 ^ 64 }

/-- The container `std::unordered_map<K, Stats>` as an association list. -/
abbrev UMap (K : Type) := List (K × Stats)

/-- `m.find(k)`: the value stored under `k`, if any. -/
def UMap.find {K : Type} [DecidableEq K] : UMap K → K → Option Stats
  | [], _ => Option.none
  | (k', s) :: rest, k => if k' = k then some s else UMap.find rest k

/-- The insertion half of `m[k]`: when `k` is absent an entry with a
value-initialised (all zero) `Stats` is created; otherwise nothing changes. -/
def UMap.emplaceDefault {K : Type} [DecidableEq K] : UMap K → K → UMap K
  | [], k => [(k, {})]
  | (k', s) :: rest, k =>
    if k' = k then (k', s) :: rest else (k', s) :: UMap.emplaceDefault rest k

/-- Mutation through the reference returned by `m[k]`. -/
def UMap.modifyAt {K : Type} [DecidableEq K] : UMap K → K → (Stats → Stats) → UMap K
  | [], _, _ => []
  | (k', s) :: rest, k, f =>
    if k' = k then (k', f s) :: rest else (k', s) :: UMap.modifyAt rest k f

/-- The statement `m[k].Add(bytes, disk)`. -/
def UMap.addAt {K : Type} [DecidableEq K] (m : UMap K) (k : K) (bytes disk : Nat) : UMap K :=
  (m.emplaceDefault k).modifyAt k (fun s => s.Add bytes disk)

/-- The store `struct FileStats`. -/
structure FileStats where
  bytype : UMap file_type := []
  byext : UMap String := []
  total : Stats := {}
  deriving DecidableEq, Repr

/-- `FileStats::Add(type, path, ext, size, ondisk)`. -/
def FileStats.Add (fs : FileStats) (type : file_type) (_path : String) (ext : String)
    (size ondisk : Nat) : FileStats :=
  { total := fs.total.Add size ondisk
    byext := fs.byext.addAt ext size ondisk
    bytype := fs.bytype.addAt type size ondisk }

/-- The arguments of one `FileStats::Add` call. -/
structure AddCall where
  type : file_type
  path : String
  ext : String
  size : Nat
  ondisk : Nat
  deriving DecidableEq, Repr

/-- One call applied to a store. -/
def FileStats.step (fs : FileStats) (c : AddCall) : FileStats :=
  fs.Add c.type c.path c.ext c.size c.ondisk

/-- A sequence of `Add` calls applied, in order, to the empty store. -/
def FileStats.run (calls : List AddCall) : FileStats :=
  calls.foldl FileStats.step {}

/-- The `Stats` that a list of calls sums to: their number and the two sums of
their size arguments, each as a 64-bit unsigned value. -/
def statsOf (calls : List AddCall) : Stats :=
  { count := calls.length % 2 ^ 64
    size := (calls.map (·.size)).sum % 2 ^ 64
    ondisk := (calls.map (·.ondisk)).sum % 2 ^ 64 }

/-- A call used to instantiate the store theorems. -/
def callA : AddCall := ⟨file_type.regular, "a.txt", ".txt", 500, 4096⟩

/-- A second call, with another extension. -/
def callB : AddCall := ⟨file_type.regular, "b.bin", ".bin", 2000000, 2002944⟩

/-- A third call, without extension. -/
def callC : AddCall := ⟨file_type.symlink, "link", "", 7, 0⟩

/-- A call whose two sizes are the largest `umax` value. -/
def callMax : AddCall :=
  ⟨file_type.regular, "x.a", ".a", 18446744073709551615, 18446744073709551615⟩

/-- A small call with the same extension and kind as `callMax`. -/
def callTwo : AddCall := ⟨file_type.regular, "y.a", ".a", 2, 3⟩


/-! ## Colors and the size classifier -/

/-- The anonymous color enumeration: `black` is 0, `white` is 15. -/
def black : Nat := 0
/-- Color 1. -/
def navy : Nat := 1
/-- Color 2. -/
def forest : Nat := 2
/-- Color 3. -/
def teal : Nat := 3
/-- Color 4. -/
def maroon : Nat := 4
/-- Color 5. -/
def purple : Nat := 5
/-- Color 6. -/
def ochre : Nat := 6
/-- Color 7. -/
def silver : Nat := 7
/-- Color 8. -/
def gray : Nat := 8
/-- Color 9. -/
def blue : Nat := 9
/-- Color 10. -/
def green : Nat := 10
/-- Color 11. -/
def cyan : Nat := 11
/-- Color 12. -/
def red : Nat := 12
/-- Color 13. -/
def magenta : Nat := 13
/-- Color 14. -/
def yellow : Nat := 14
/-- Color 15. -/
def white : Nat := 15

/-- `constexpr auto KB = 1 << 10`. -/
def KB : Nat := 1 <<< 10
/-- `constexpr auto MB = 1 << 20`. -/
def MB : Nat := 1 <<< 20
/-- `constexpr auto GB = 1 << 30`. -/
def GB : Nat := 1 <<< 30

/-- `using SizePalette = vector<umax>`: colors at even indices, upper bounds at odd
indices, the fallback color last. -/
abbrev SizePalette := List Nat

/-- The table `size_palette`; `n_KB` is `n * KB` and so on. -/
def size_palette : SizePalette :=
  [teal, 1 * KB, forest, 1 * MB, ochre, 10 * MB, yellow, 50 * MB, maroon, 100 * MB,
   red, 1 * GB, magenta]

/-- The `for (size_t i=1; i<palette.size(); i+=2)` loop of `GetSizeColor`, with the
current index `i` and the current value of `color`; the first argument bounds the
number of iterations. -/
def GetSizeColor.loop (sz : Nat) (palette : SizePalette) : Nat → Nat → Nat → Nat
  | 0, _, color => color
  | fuel + 1, i, color =>
    if i < palette.length then
      if sz < palette.getD i 0 then palette.getD (i - 1) 0
      else GetSizeColor.loop sz palette fuel (i + 2) color
    else color

/-- `GetSizeColor(sz, palette)`: `color` starts as `palette.back()` (undefined for
an empty palette, hence `none`), then the loop runs. The statement
`assert(color >= 0 && color < 16)` stops the program for a color outside the range
(`none`); for a color inside it the cast `(int)color` keeps the value. -/
def GetSizeColor (sz : Nat) (palette : SizePalette := size_palette) : Option Nat :=
  match palette.getLast? with
  | Option.none => Option.none
  | some last =>
    if GetSizeColor.loop sz palette palette.length 1 last < 16 then
      some (GetSizeColor.loop sz palette palette.length 1 last)
    else Option.none

/-- A threshold table, a list of `(color, upper_bound)` pairs, laid out the way a
`SizePalette` stores it. -/
def flattenTable : List (Nat × Nat) → List Nat
  | [] => []
  | (c, u) :: rest => c :: u :: flattenTable rest

/-- The classifier as the specification words it: the color paired with the first
threshold whose upper bound strictly exceeds `byte_count`, and `fallback_color` when
no threshold does. -/
def classify (byte_count : Nat) (thresholds : List (Nat × Nat)) (fallback_color : Nat) : Nat :=
  match thresholds.find? (fun p => byte_count < p.2) with
  | some p => p.1
  | Option.none => fallback_color

/-- The default thresholds of the specification, in bytes. -/
def defaultThresholds : List (Nat × Nat) :=
  [(teal, 1024), (forest, 2 ^ 20), (ochre, 10 * 2 ^ 20), (yellow, 50 * 2 ^ 20),
   (maroon, 100 * 2 ^ 20), (red, 2 ^ 30)]

/-! ## Sorting, the top-K listing and the extension table -/

/-- The record `struct FileInfo`. -/
structure FileInfo where
  type : file_type := file_type.none
  path : String := ""
  size : Nat := 0
  ondisk : Nat := 0
  deriving DecidableEq, Repr

/-- The contract of `std::sort(first, last, comp)` for one comparator: the result is a
permutation of the input in which no element is ordered by `comp` before an element
that precedes it. The order of equivalent elements is left open. -/
def SortsBy {α : Type} (comp : α → α → Bool) (sort : List α → List α) : Prop :=
  ∀ l, (sort l).Perm l ∧ (sort l).Pairwise (fun a b => comp b a = false)

/-- One executable implementation of `std::sort`: insertion sort. -/
def stdSort {α : Type} (comp : α → α → Bool) (l : List α) : List α :=
  l.insertionSort (fun a b => comp b a = false)

/-- The comparator of the top-K sort: `a.size > b.size`. -/
def bySizeDesc (a b : FileInfo) : Bool := decide (a.size > b.size)

/-- The top-K step of `main`: `sort(files, a.size > b.size)` and then
`if (files.size() > topcount) files.resize(topcount)`. -/
def topFiles (sort : (FileInfo → FileInfo → Bool) → List FileInfo → List FileInfo)
    (files : List FileInfo) (topcount : Nat) : List FileInfo :=
  let sorted := sort bySizeDesc files
  if sorted.length > topcount then sorted.take topcount else sorted

/-- The comparator of the extension sort: `a.second.size > b.second.size`. -/
def byTotalSizeDesc (a b : String × Stats) : Bool := decide (a.2.size > b.2.size)

/-- The rows of the extension table: `exts(stats.byext.begin(), stats.byext.end())`
sorted with `a.second.size > b.second.size`. -/
def extRows (sort : (String × Stats → String × Stats → Bool) →
      List (String × Stats) → List (String × Stats))
    (stats : FileStats) : List (String × Stats) :=
  sort byTotalSizeDesc stats.byext

/-- A file record with the given size, for the instances below. -/
def fileOfSize (n : Nat) : FileInfo := { path := "f", size := n }

/-! ## Double-precision arithmetic and `Stats::Avg`

`double` is IEEE-754 binary64 with the default rounding (to nearest, ties to even).
Only finite non-negative values occur here, and every quotient formed from 64-bit
operands lies far inside the exponent range, so a value is a dyadic rational and the
only rounding is the one to 53 significant bits. -/

/-- A finite non-negative `double`: the dyadic rational `num / 2 ^ scale`. -/
structure Dbl where
  num : Nat
  scale : Nat
  deriving DecidableEq, Repr

/-- The loop of `ilog2`; the first argument bounds the number of halvings. -/
def ilog2.loop : Nat → Nat → Nat
  | 0, _ => 0
  | fuel + 1, n => if n < 2 then 0 else ilog2.loop fuel (n / 2) + 1

/-- The binary logarithm rounded down: the position of the leading one bit of `n`. -/
def ilog2 (n : Nat) : Nat := ilog2.loop n n

/-- The quotient `n / d` rounded to the nearest integer, ties to the even one. -/
def rne (n d : Nat) : Nat :=
  if 2 * (n % d) < d then n / d
  else if d < 2 * (n % d) then n / d + 1
  else if (n / d) % 2 = 0 then n / d else n / d + 1

/-- The conversion `(double)n` of an unsigned integer: exact below `2 ^ 53`, otherwise
`n` is rounded to a multiple of `2 ^ e` with `e = ⌊log2 n⌋ - 52`, so that 53
significant bits remain. -/
def toDouble (n : Nat) : Dbl :=
  if n < 2 ^ 53 then ⟨n, 0⟩
  else ⟨rne n (2 ^ (ilog2 n - 52)) * 2 ^ (ilog2 n - 52), 0⟩

/-- The least `k` with `2 ^ 52 ≤ n * 2 ^ k / d`, for `0 < n` and `n / d < 2 ^ 53`: the
number of fraction bits that a quotient below `2 ^ 53` keeps. -/
def binadeShift (n d : Nat) : Nat :=
  let k := ilog2 (2 ^ 52 * d) - ilog2 n
  if 2 ^ 52 * d ≤ n * 2 ^ k then k else k + 1

/-- The exact quotient `n / d` of two naturals rounded to a `double`. A quotient of
`2 ^ 53` or more is rounded to a multiple of `2 ^ e` with `e = ⌊log2 (n / d)⌋ - 52`;
a smaller one keeps `binadeShift n d` fraction bits. -/
def roundToDouble (n d : Nat) : Dbl :=
  if n = 0 then ⟨0, 0⟩
  else if 2 ^ 53 * d ≤ n then
    ⟨rne n (d * 2 ^ (ilog2 (n / d) - 52)) * 2 ^ (ilog2 (n / d) - 52), 0⟩
  else ⟨rne (n * 2 ^ binadeShift n d) d, binadeShift n d⟩

/-- The operator `x / y` on `double`s; `none` stands for the non-finite result of a
division by zero. -/
def Dbl.div (x y : Dbl) : Option Dbl :=
  if y.num = 0 then Option.none
  else some (roundToDouble (x.num * 2 ^ y.scale) (y.num * 2 ^ x.scale))

/-- The quotient `n / d` rounded to the nearest integer, ties away from zero. -/
def rna (n d : Nat) : Nat := (2 * n + d) / (2 * d)

/-- The number of hundredths that `printf("%.2f", v)` prints: the exact value of `v`
rounded to two decimals. The C runtime decides the halfway cases: to even in the
current runtime, away from zero in the `legacy` one. -/
def hundredths (legacy : Bool) (v : Dbl) : Nat :=
  if legacy then rna (100 * v.num) (2 ^ v.scale) else rne (100 * v.num) (2 ^ v.scale)

/-- The two decimal digits of `n < 100`. -/
def twoDigits (n : Nat) : String :=
  String.mk [Nat.digitChar (n / 10 % 10), Nat.digitChar (n % 10)]

/-- The text of `h` hundredths: integer part, a point, two decimals. -/
def renderHundredths (h : Nat) : String :=
  Nat.repr (h / 100) ++ "." ++ twoDigits (h % 100)

/-- The conversion `printf("%.2f", v)`. -/
def format2f (legacy : Bool) (v : Dbl) : String :=
  renderHundredths (hundredths legacy v)

/-- `SizeStr(bytes)`: the text that `sformat` produces for
`bytes < MB ? "%.2f KB" of bytes / (double)KB : bytes < GB ? "%.2f MB" of
bytes / (double)MB : "%.2f GB" of bytes / (double)GB`. `legacy` names the C runtime
in use, which only matters for values exactly halfway between two hundredths. -/
def SizeStr (legacy : Bool) (bytes : Nat) : Option String :=
  if bytes < MB then
    (Dbl.div (toDouble bytes) (toDouble KB)).map (fun v => format2f legacy v ++ " KB")
  else if bytes < GB then
    (Dbl.div (toDouble bytes) (toDouble MB)).map (fun v => format2f legacy v ++ " MB")
  else
    (Dbl.div (toDouble bytes) (toDouble GB)).map (fun v => format2f legacy v ++ " GB")

/-! ## The scratch formatter and `BytesStr` -/

/-- `sizeof(buf)` of `sformatter`: `char buf[2_MB]`. -/
def bufSize : Nat := 2 * MB

/-- The terminating character of a C string. -/
def NUL : Char := Char.ofNat 0

/-- The scratch formatter `struct sformatter`; `buf` gives the character stored at
each index, and a pointer into `buf` is the index it addresses. -/
structure sformatter where
  buf : Nat → Char := fun _ => NUL
  pos : Nat := 0
  numWraps : Nat := 0

/-- `left()`: `sizeof(buf) - pos`. -/
def sformatter.left (sf : sformatter) : Nat := bufSize - sf.pos

/-- `ptr()`: `buf + pos`. -/
def sformatter.ptr (sf : sformatter) : Nat := sf.pos

/-- `check_wrap(len)`: nothing happens when `len < left()`; otherwise
`buf[pos] = 0; buf[0] = 0; pos = 0; numWraps++`. The flag is the returned `bool`. -/
def sformatter.check_wrap (sf : sformatter) (len : Nat) : sformatter × Bool :=
  if len < sf.left then (sf, false)
  else
    ({ buf := Function.update (Function.update sf.buf sf.pos NUL) 0 NUL
       pos := 0
       numWraps := (sf.numWraps + 1) % 2 ^ 64 }, true)

/-- `put(char c)`: `check_wrap(1); buf[pos++] = c;`. -/
def sformatter.put (sf : sformatter) (c : Char) : sformatter :=
  let sf1 := (sf.check_wrap 1).1
  { sf1 with buf := Function.update sf1.buf sf1.pos c, pos := sf1.pos + 1 }

/-- The C string that starts at index `p` of `buf`: the characters before the first
`NUL`; the first argument bounds the number of characters read. -/
def cstrAt (buf : Nat → Char) : Nat → Nat → List Char
  | 0, _ => []
  | fuel + 1, p => if buf p = NUL then [] else buf p :: cstrAt buf fuel (p + 1)

/-- The conversion `"%ju"`: the decimal digits of `n`. -/
def decimal (n : Nat) : List Char := Nat.toDigits 10 n

/-- The function `isdigit`. -/
def isdigit (c : Char) : Bool := c.isDigit

/-- The `for (int i=0; i<slen; i++)` loop of `BytesStr`; `tbuf[i]` is `*o`, the first
argument bounds the number of iterations. -/
def BytesStr.loop (tbuf : List Char) (slen : Nat) : Nat → Nat → sformatter → sformatter
  | 0, _, sf => sf
  | fuel + 1, i, sf =>
    if i < slen then
      let dist := slen - i - 1
      let comma := dist % 3 == 0 && isdigit (tbuf.getD i NUL) && isdigit (tbuf.getD (i + 1) NUL)
      let sf1 := sf.put (tbuf.getD i NUL)
      let sf2 := if comma then sf1.put ',' else sf1
      BytesStr.loop tbuf slen fuel (i + 1) sf2
    else sf

/-- `BytesStr(bytes)` on the formatter state `sf`: the new state and the returned
pointer `bytestr`, taken by `sformat_ptr()` before anything is written. -/
def BytesStr (sf : sformatter) (bytes : Nat) : sformatter × Nat :=
  let tbuf := decimal bytes ++ [NUL]
  let slen := (decimal bytes).length
  let bytestr := sf.ptr
  let sf1 := BytesStr.loop tbuf slen slen 0 sf
  ((((sf1.put ' ').put 'B').put NUL), bytestr)

/-- The text behind the pointer that `BytesStr` returns, read from the buffer as
`BytesStr` leaves it. -/
def BytesStr.text (sf : sformatter) (bytes : Nat) : List Char :=
  cstrAt (BytesStr sf bytes).1.buf (bufSize - (BytesStr sf bytes).2) (BytesStr sf bytes).2

/-- Digits with a comma before every group of three counted from the right end:
a comma follows a digit exactly when the number of digits after it is a positive
multiple of three. -/
def commaGroup : List Char → List Char
  | [] => []
  | c :: rest =>
    if rest.length % 3 = 0 ∧ rest ≠ [] then c :: ',' :: commaGroup rest
    else c :: commaGroup rest

/-! ## The argument loop of `main` -/

/-- The double-quote character. -/
def quote : Char := Char.ofNat 34

/-- The memory of one argument `argv[i]`: its characters and the terminating `NUL`.
An index into this list is an offset from the start of the argument. -/
def argMem (arg : List Char) : List Char := arg ++ [NUL]

/-- `strlen`: the number of characters before the first `NUL`. -/
def strlen (mem : List Char) : Nat := (mem.takeWhile (fun c => c ≠ NUL)).length

/-- The C string at offset `p` of `mem`. -/
def cstrFrom (mem : List Char) (p : Nat) : List Char :=
  (mem.drop p).takeWhile (fun c => c ≠ NUL)

/-- The quote handling of the argument loop:
`len = strlen(argv[i]); if (argv[i][0] == quote) argv[i]++;
if (argv[i][len-1] == quote) argv[i][len-1] = 0;` and then the C string that
`argv[i]` points to. `len-1` is taken from the pointer as it is after the first
statement. The result is `none` when an access falls outside the argument's memory
(an empty argument: index `len-1` lies before its first character). -/
def stripQuotes (arg : List Char) : Option (List Char) :=
  let mem := argMem arg
  let len := strlen mem
  let p := if mem.getD 0 NUL = quote then 1 else 0
  if len = 0 then Option.none
  else if p + (len - 1) < mem.length then
    let mem1 := if mem.getD (p + (len - 1)) NUL = quote then mem.set (p + (len - 1)) NUL else mem
    some (cstrFrom mem1 p)
  else Option.none

/-- `ToLower`: `tolower` applied to every character. -/
def ToLower (s : List Char) : List Char := s.map Char.toLower

/-- The token the loop interprets: `string arg = ToLower(argv[i])` after the quote
handling. -/
def parseArg (arg : List Char) : Option (List Char) :=
  (stripQuotes arg).map ToLower

/-- Whether the loop sets `walk`: `arg == "-walk"`. -/
def isWalkFlag (arg : List Char) : Bool :=
  parseArg arg == some "-walk".toList

/-! ## `size_on_disk` and the walk loop -/

/-- The value `INVALID_FILE_SIZE` that `GetCompressedFileSizeA` returns in the low
word when the query fails. -/
def INVALID_FILE_SIZE : Nat := 0xFFFFFFFF

/-- `size_on_disk(filename)`, given what `GetCompressedFileSizeA(filename, &high)`
leaves: the returned word `low` and the word `high`. With `cpu_bits == 64` the result
is `((size_t)high << 32) | (size_t)low`, otherwise `low`. -/
def size_on_disk (cpu_bits : Nat) (low high : Nat) : Nat :=
  if cpu_bits = 64 then ((high <<< 32) % 2 ^ 64) ||| low else low

/-- One entry of the directory walk, with the two words of its size-on-disk query. -/
structure WalkEntry where
  type : file_type
  path : String
  ext : String
  bytes : Nat
  is_directory : Bool
  low : Nat
  high : Nat
  deriving DecidableEq, Repr

/-- The accumulation step of the walk loop: `ondisk = size_on_disk(...)` and, for an
entry that is not a directory, `stats.Add(type, path, ext, bytes, ondisk)`. -/
def walkAdd (cpu_bits : Nat) (stats : FileStats) (e : WalkEntry) : FileStats :=
  let ondisk := size_on_disk cpu_bits e.low e.high
  if !e.is_directory then stats.Add e.type e.path e.ext e.bytes ondisk else stats

/-- A regular file whose size-on-disk query failed and left `high` at 0. -/
def failedEntry : WalkEntry :=
  ⟨file_type.regular, "f.dat", ".dat", 10, false, INVALID_FILE_SIZE, 0⟩

/-- A regular file of 5 GB on disk: `low = 2 ^ 30`, `high = 1`. -/
def largeEntry : WalkEntry :=
  ⟨file_type.regular, "g.dat", ".dat", 5368709120, false, 1073741824, 1⟩

/-! ## The other operations of the scratch formatter -/

/-- The stores of `memcpy(buf + p, data, n)`, and of a loop `buf[p++] = c`: the
characters `cs` written to consecutive indices from `p` on. -/
def storeList (buf : Nat → Char) : Nat → List Char → Nat → Char
  | _, [] => buf
  | p, c :: cs => storeList (Function.update buf p c) (p + 1) cs

/-- `put(char c, size_t count)`: `if (count == 0) return; check_wrap(count);
loopi(count) buf[pos++] = c;`. -/
def sformatter.putN (sf : sformatter) (c : Char) (count : Nat) : sformatter :=
  if count = 0 then sf
  else
    let sf1 := (sf.check_wrap count).1
    { sf1 with buf := storeList sf1.buf sf1.pos (List.replicate count c), pos := sf1.pos + count }

/-- `put(kview sv)`: `check_wrap(sv.size()); memcpy(ptr(), sv.data(), sv.size());
pos += sv.size();`. -/
def sformatter.putView (sf : sformatter) (sv : List Char) : sformatter :=
  let sf1 := (sf.check_wrap sv.length).1
  { sf1 with buf := storeList sf1.buf sf1.ptr sv, pos := sf1.pos + sv.length }

/-- `print(kview sv)`: `start = ptr(); check_wrap(sv.size() + 1); memcpy(ptr(), ...);
pos += sv.size(); buf[pos++] = 0; return start;`. The pointer `start` is taken
before `check_wrap`. -/
def sformatter.print (sf : sformatter) (sv : List Char) : sformatter × Nat :=
  let start := sf.ptr
  let sf1 := (sf.check_wrap (sv.length + 1)).1
  ({ sf1 with buf := Function.update (storeList sf1.buf sf1.ptr sv) (sf1.pos + sv.length) NUL
              pos := sf1.pos + sv.length + 1 }, start)

/-- `fill(char c, size_t count)`: `start = ptr(); put(c, count); put(0); return start;`. -/
def sformatter.fill (sf : sformatter) (c : Char) (count : Nat) : sformatter × Nat :=
  let start := sf.ptr
  (((sf.putN c count).put NUL), start)

/-- What `vsnprintf(buf + start, count, fmt, args)` stores when the format expands to
`out`: nothing for `count == 0`, otherwise the first `count - 1` characters of `out`
and a `NUL`. Its return value is the length of `out`. -/
def vsnprintf (buf : Nat → Char) (start count : Nat) (out : List Char) : Nat → Char :=
  if count = 0 then buf else storeList buf start (out.take (count - 1) ++ [NUL])

/-- `vformat(fmt, args)` for a format that expands to `out`:
`start = ptr(); len = vsnprintf(start, left(), fmt, args);
if (check_wrap(len)) { start = ptr(); vsnprintf(start, left(), fmt, args); }
pos += len + 1; return start;`. After a wrap the pointer is taken again. -/
def sformatter.vformat (sf : sformatter) (out : List Char) : sformatter × Nat :=
  let start := sf.ptr
  let sf1 : sformatter := { sf with buf := vsnprintf sf.buf start sf.left out }
  let len := out.length
  let r := sf1.check_wrap len
  if r.2 then
    ({ r.1 with buf := vsnprintf r.1.buf r.1.ptr r.1.left out, pos := r.1.pos + (len + 1) },
      r.1.ptr)
  else ({ sf1 with pos := sf1.pos + (len + 1) }, start)

/-- The indices of `buf` that `check_wrap(len)` stores to: none when `len < left()`,
otherwise `pos` (for `buf[pos] = 0`) and 0 (for `buf[0] = 0`). -/
def sformatter.check_wrap_stores (sf : sformatter) (len : Nat) : List Nat :=
  if len < sf.left then [] else [sf.pos, 0]

/-- The indices of `buf` that `put(char c)` stores to: those of `check_wrap(1)` and
then the index `pos` of `buf[pos++] = c`. -/
def sformatter.put_stores (sf : sformatter) : List Nat :=
  sf.check_wrap_stores 1 ++ [(sf.check_wrap 1).1.pos]

/-- The formatter after `k` calls `sformat_put(0)` on the initial one. -/
def afterPuts (k : Nat) : sformatter := (List.replicate k NUL).foldl sformatter.put {}
/-! # Theorems -/

/-! ## Accumulation lemmas -/

theorem run_snoc (calls : List AddCall) (c : AddCall) :
    FileStats.run (calls ++ [c]) = (FileStats.run calls).step c := by
  simp [FileStats.run, List.foldl_append]

theorem statsOf_snoc (calls : List AddCall) (c : AddCall) :
    statsOf (calls ++ [c]) = (statsOf calls).Add c.size c.ondisk := by
  simp only [statsOf, Stats.Add, List.length_append, List.length_singleton, List.map_append,
    List.sum_append, List.map_cons, List.map_nil, List.sum_cons, List.sum_nil, Nat.add_zero]
  congr 1 <;> omega

theorem statsOf_perm {l₁ l₂ : List AddCall} (h : l₁.Perm l₂) : statsOf l₁ = statsOf l₂ := by
  simp only [statsOf, h.length_eq, (h.map (·.size)).sum_eq, (h.map (·.ondisk)).sum_eq]

theorem run_total (calls : List AddCall) : (FileStats.run calls).total = statsOf calls := by
  induction calls using List.reverseRecOn with
  | nil => rfl
  | append_singleton l c ih =>
    rw [run_snoc, statsOf_snoc, ← ih]; rfl

theorem Stats.Add_ne (s : Stats) (b d : Nat) : s.Add b d ≠ s := by
  intro h
  have hc : (s.Add b d).count = s.count := by rw [h]
  simp only [Stats.Add] at hc
  omega

section UMapLemmas
variable {K : Type} [DecidableEq K]

theorem UMap.find_emplaceDefault (m : UMap K) (k k' : K) :
    (m.emplaceDefault k).find k' =
      if k' = k then some ((m.find k).getD {}) else m.find k' := by
  induction m with
  | nil =>
    by_cases h : k = k' <;> simp [UMap.emplaceDefault, UMap.find, h, eq_comm]
  | cons p rest ih =>
    obtain ⟨a, s⟩ := p
    by_cases h1 : a = k
    · subst h1
      by_cases h2 : k' = a
      · subst h2; simp [UMap.emplaceDefault, UMap.find]
      · simp [UMap.emplaceDefault, UMap.find, h2]
    · by_cases h2 : a = k'
      · subst h2
        simp [UMap.emplaceDefault, UMap.find, h1]
      · simp [UMap.emplaceDefault, UMap.find, h1, h2, ih]

theorem UMap.find_modifyAt (m : UMap K) (k k' : K) (f : Stats → Stats) :
    (m.modifyAt k f).find k' = if k' = k then (m.find k).map f else m.find k' := by
  induction m with
  | nil => simp [UMap.modifyAt, UMap.find]
  | cons p rest ih =>
    obtain ⟨a, s⟩ := p
    by_cases h1 : a = k
    · subst h1
      by_cases h2 : k' = a
      · subst h2; simp [UMap.modifyAt, UMap.find]
      · have h3 : ¬ a = k' := fun h => h2 h.symm
        simp [UMap.modifyAt, UMap.find, h2, h3]
    · by_cases h2 : a = k'
      · subst h2
        simp [UMap.modifyAt, UMap.find, h1]
      · simp [UMap.modifyAt, UMap.find, h1, h2, ih]

theorem UMap.find_addAt_self (m : UMap K) (k : K) (b d : Nat) :
    (m.addAt k b d).find k = some (((m.find k).getD {}).Add b d) := by
  simp [UMap.addAt, UMap.find_modifyAt, UMap.find_emplaceDefault]

theorem UMap.find_addAt_other (m : UMap K) {k k' : K} (h : k' ≠ k) (b d : Nat) :
    (m.addAt k b d).find k' = m.find k' := by
  simp [UMap.addAt, UMap.find_modifyAt, UMap.find_emplaceDefault, h]

theorem UMap.keys_modifyAt (m : UMap K) (k : K) (f : Stats → Stats) :
    (m.modifyAt k f).map Prod.fst = m.map Prod.fst := by
  induction m with
  | nil => rfl
  | cons p rest ih =>
    obtain ⟨a, s⟩ := p
    by_cases h1 : a = k <;> simp [UMap.modifyAt, h1, ih]

theorem UMap.keys_emplaceDefault (m : UMap K) (k : K) :
    (m.emplaceDefault k).map Prod.fst =
      if k ∈ m.map Prod.fst then m.map Prod.fst else m.map Prod.fst ++ [k] := by
  induction m with
  | nil => simp [UMap.emplaceDefault]
  | cons p rest ih =>
    obtain ⟨a, s⟩ := p
    by_cases h1 : a = k
    · subst h1; simp [UMap.emplaceDefault]
    · have h2 : ¬ k = a := fun h => h1 h.symm
      simp only [UMap.emplaceDefault, h1, if_false, List.map_cons, ih, List.mem_cons, h2,
        false_or]
      split <;> simp

theorem UMap.keys_addAt (m : UMap K) (k : K) (b d : Nat) :
    (m.addAt k b d).map Prod.fst =
      if k ∈ m.map Prod.fst then m.map Prod.fst else m.map Prod.fst ++ [k] := by
  simp only [UMap.addAt, UMap.keys_modifyAt, UMap.keys_emplaceDefault]

theorem UMap.nodup_addAt (m : UMap K) (k : K) (b d : Nat)
    (h : (m.map Prod.fst).Nodup) : ((m.addAt k b d).map Prod.fst).Nodup := by
  rw [UMap.keys_addAt]
  split
  · exact h
  · rename_i hk
    exact List.Nodup.append h (List.nodup_singleton k) (by simpa using hk)

theorem UMap.find_isSome_iff (m : UMap K) (k : K) :
    (m.find k).isSome ↔ k ∈ m.map Prod.fst := by
  induction m with
  | nil => simp [UMap.find]
  | cons p rest ih =>
    obtain ⟨a, s⟩ := p
    by_cases h1 : a = k
    · subst h1; simp [UMap.find]
    · have h2 : ¬ k = a := fun h => h1 h.symm
      simp [UMap.find, h1, h2, ih]

theorem UMap.mem_of_find (m : UMap K) (k : K) (s : Stats) (h : m.find k = some s) :
    (k, s) ∈ m := by
  induction m with
  | nil => simp [UMap.find] at h
  | cons p rest ih =>
    obtain ⟨a, t⟩ := p
    by_cases h1 : a = k
    · subst h1
      simp [UMap.find] at h
      simp [h]
    · simp only [UMap.find, h1, if_false] at h
      exact List.mem_cons_of_mem _ (ih h)

theorem UMap.find_of_mem (m : UMap K) (hnd : (m.map Prod.fst).Nodup) (k : K) (s : Stats)
    (h : (k, s) ∈ m) : m.find k = some s := by
  induction m with
  | nil => simp at h
  | cons p rest ih =>
    obtain ⟨a, t⟩ := p
    simp only [List.map_cons, List.nodup_cons] at hnd
    rcases List.mem_cons.1 h with h | h
    · cases h; simp [UMap.find]
    · have hk : k ∈ rest.map Prod.fst := List.mem_map.2 ⟨(k, s), h, rfl⟩
      have h1 : ¬ a = k := fun e => hnd.1 (e ▸ hk)
      simp only [UMap.find, h1, if_false]
      exact ih hnd.2 h

end UMapLemmas

/-! ## Per-key accumulation -/

theorem statsOf_nil : statsOf [] = {} := by
  simp [statsOf]

theorem run_byext_find (calls : List AddCall) (e : String) :
    (FileStats.run calls).byext.find e =
      if calls.filter (fun c => c.ext = e) = [] then Option.none
      else some (statsOf (calls.filter (fun c => c.ext = e))) := by
  induction calls using List.reverseRecOn with
  | nil => rfl
  | append_singleton l c ih =>
    rw [run_snoc]
    by_cases h : c.ext = e
    · subst h
      have hf : (l ++ [c]).filter (fun x => x.ext = c.ext)
          = l.filter (fun x => x.ext = c.ext) ++ [c] := by simp
      rw [hf, statsOf_snoc]
      simp only [FileStats.step, FileStats.Add, UMap.find_addAt_self, ih]
      split <;> rename_i h0
      · simp [h0, statsOf_nil]
      · simp
    · have hf : (l ++ [c]).filter (fun x => x.ext = e) = l.filter (fun x => x.ext = e) := by
        simp [h]
      have he : e ≠ c.ext := fun h' => h h'.symm
      rw [hf]
      simp only [FileStats.step, FileStats.Add, UMap.find_addAt_other _ he, ih]

theorem run_bytype_find (calls : List AddCall) (k : file_type) :
    (FileStats.run calls).bytype.find k =
      if calls.filter (fun c => c.type = k) = [] then Option.none
      else some (statsOf (calls.filter (fun c => c.type = k))) := by
  induction calls using List.reverseRecOn with
  | nil => rfl
  | append_singleton l c ih =>
    rw [run_snoc]
    by_cases h : c.type = k
    · subst h
      have hf : (l ++ [c]).filter (fun x => x.type = c.type)
          = l.filter (fun x => x.type = c.type) ++ [c] := by simp
      rw [hf, statsOf_snoc]
      simp only [FileStats.step, FileStats.Add, UMap.find_addAt_self, ih]
      split <;> rename_i h0
      · simp [h0, statsOf_nil]
      · simp
    · have hf : (l ++ [c]).filter (fun x => x.type = k) = l.filter (fun x => x.type = k) := by
        simp [h]
      have he : k ≠ c.type := fun h' => h h'.symm
      rw [hf]
      simp only [FileStats.step, FileStats.Add, UMap.find_addAt_other _ he, ih]

theorem filter_eq_nil_iff_not_exists {α : Type} (l : List α) (p : α → Prop) [DecidablePred p] :
    l.filter (fun x => p x) = [] ↔ ¬ ∃ c ∈ l, p c := by
  simp [List.filter_eq_nil_iff]

theorem run_byext_nodup (calls : List AddCall) :
    ((FileStats.run calls).byext.map Prod.fst).Nodup := by
  induction calls using List.reverseRecOn with
  | nil => simp [FileStats.run]
  | append_singleton l c ih =>
    rw [run_snoc]
    exact UMap.nodup_addAt _ _ _ _ ih

theorem UMap.addAt_find_ne {K : Type} [DecidableEq K] (m : UMap K) (k : K) (b d : Nat) :
    (m.addAt k b d).find k ≠ m.find k := by
  rw [UMap.find_addAt_self]
  cases h : m.find k with
  | none => simp
  | some s =>
    intro h'
    exact Stats.Add_ne s b d (by simpa using h')

/-! ## C1, C2: the accumulator store -/

/-- C1: after any finite sequence of `FileStats::Add` calls on an empty store,
`total.count` is the number of calls and `total.size`, `total.ondisk` are the sums of
the respective arguments, all modulo `2 ^ 64` and exactly when the true values are
below `2 ^ 64`; the totals are the same for every reordering of the calls. -/
theorem total_counts_and_sums (calls : List AddCall) :
    (FileStats.run calls).total.count = calls.length % 2 ^ 64 ∧
    (FileStats.run calls).total.size = (calls.map (·.size)).sum % 2 ^ 64 ∧
    (FileStats.run calls).total.ondisk = (calls.map (·.ondisk)).sum % 2 ^ 64 ∧
    (calls.length < 2 ^ 64 → (FileStats.run calls).total.count = calls.length) ∧
    ((calls.map (·.size)).sum < 2 ^ 64 →
      (FileStats.run calls).total.size = (calls.map (·.size)).sum) ∧
    ((calls.map (·.ondisk)).sum < 2 ^ 64 →
      (FileStats.run calls).total.ondisk = (calls.map (·.ondisk)).sum) ∧
    (∀ calls' : List AddCall, calls.Perm calls' →
      (FileStats.run calls').total = (FileStats.run calls).total) := by
  rw [run_total]
  refine ⟨rfl, rfl, rfl, ?_, ?_, ?_, ?_⟩
  · intro h; exact Nat.mod_eq_of_lt h
  · intro h; exact Nat.mod_eq_of_lt h
  · intro h; exact Nat.mod_eq_of_lt h
  · intro calls' h
    rw [run_total, statsOf_perm h]

theorem total_counts_and_sums_witness :
    (FileStats.run [callA, callB, callC]).total = ⟨3, 2000507, 2007040⟩ ∧
    (FileStats.run [callC, callA, callB]).total =
      (FileStats.run [callA, callB, callC]).total :=
  ⟨by decide,
   (total_counts_and_sums [callA, callB, callC]).2.2.2.2.2.2 [callC, callA, callB]
     (by decide)⟩

theorem statsOf_exact (l : List AddCall) :
    ((statsOf l).count = l.length % 2 ^ 64 ∧
      (statsOf l).size = (l.map (·.size)).sum % 2 ^ 64 ∧
      (statsOf l).ondisk = (l.map (·.ondisk)).sum % 2 ^ 64) ∧
    (l.length < 2 ^ 64 → (statsOf l).count = l.length) ∧
    ((l.map (·.size)).sum < 2 ^ 64 → (statsOf l).size = (l.map (·.size)).sum) ∧
    ((l.map (·.ondisk)).sum < 2 ^ 64 → (statsOf l).ondisk = (l.map (·.ondisk)).sum) :=
  ⟨⟨rfl, rfl, rfl⟩, fun h => Nat.mod_eq_of_lt h, fun h => Nat.mod_eq_of_lt h,
    fun h => Nat.mod_eq_of_lt h⟩

/-- C2, as the code has it: after any finite sequence of `Add` calls on an empty
store, `byext` has an entry for `e` exactly when some call used extension `e`, and
the entry holds the number of those calls and the sums of their sizes (the empty
extension included), each as a 64-bit unsigned value: modulo `2 ^ 64`, and exactly
whenever the true value is below `2 ^ 64`; likewise `bytype` and `k`. A single `Add`
on any store changes `total`, the entry of its extension and the entry of its kind,
by one `Stats::Add` each, and leaves the entry of every other extension and kind as
it was. -/
theorem byext_bytype_entries (calls : List AddCall) (e : String) (k : file_type)
    (fs : FileStats) (c : AddCall) :
    ((((FileStats.run calls).byext.find e).isSome ↔ ∃ x ∈ calls, x.ext = e) ∧
     (∀ s, (FileStats.run calls).byext.find e = some s →
        (s.count = (calls.filter (fun x => x.ext = e)).length % 2 ^ 64 ∧
         s.size = ((calls.filter (fun x => x.ext = e)).map (·.size)).sum % 2 ^ 64 ∧
         s.ondisk = ((calls.filter (fun x => x.ext = e)).map (·.ondisk)).sum % 2 ^ 64) ∧
        ((calls.filter (fun x => x.ext = e)).length < 2 ^ 64 →
          s.count = (calls.filter (fun x => x.ext = e)).length) ∧
        (((calls.filter (fun x => x.ext = e)).map (·.size)).sum < 2 ^ 64 →
          s.size = ((calls.filter (fun x => x.ext = e)).map (·.size)).sum) ∧
        (((calls.filter (fun x => x.ext = e)).map (·.ondisk)).sum < 2 ^ 64 →
          s.ondisk = ((calls.filter (fun x => x.ext = e)).map (·.ondisk)).sum))) ∧
    ((((FileStats.run calls).bytype.find k).isSome ↔ ∃ x ∈ calls, x.type = k) ∧
     (∀ s, (FileStats.run calls).bytype.find k = some s →
        (s.count = (calls.filter (fun x => x.type = k)).length % 2 ^ 64 ∧
         s.size = ((calls.filter (fun x => x.type = k)).map (·.size)).sum % 2 ^ 64 ∧
         s.ondisk = ((calls.filter (fun x => x.type = k)).map (·.ondisk)).sum % 2 ^ 64) ∧
        ((calls.filter (fun x => x.type = k)).length < 2 ^ 64 →
          s.count = (calls.filter (fun x => x.type = k)).length) ∧
        (((calls.filter (fun x => x.type = k)).map (·.size)).sum < 2 ^ 64 →
          s.size = ((calls.filter (fun x => x.type = k)).map (·.size)).sum) ∧
        (((calls.filter (fun x => x.type = k)).map (·.ondisk)).sum < 2 ^ 64 →
          s.ondisk = ((calls.filter (fun x => x.type = k)).map (·.ondisk)).sum))) ∧
    ((fs.step c).total = fs.total.Add c.size c.ondisk ∧ (fs.step c).total ≠ fs.total) ∧
    ((fs.step c).byext.find c.ext
        = some (((fs.byext.find c.ext).getD {}).Add c.size c.ondisk) ∧
     (fs.step c).byext.find c.ext ≠ fs.byext.find c.ext ∧
     ∀ e', e' ≠ c.ext → (fs.step c).byext.find e' = fs.byext.find e') ∧
    ((fs.step c).bytype.find c.type
        = some (((fs.bytype.find c.type).getD {}).Add c.size c.ondisk) ∧
     (fs.step c).bytype.find c.type ≠ fs.bytype.find c.type ∧
     ∀ k', k' ≠ c.type → (fs.step c).bytype.find k' = fs.bytype.find k') := by
  refine ⟨⟨?_, ?_⟩, ⟨?_, ?_⟩, ⟨rfl, Stats.Add_ne _ _ _⟩, ⟨?_, ?_, ?_⟩, ⟨?_, ?_, ?_⟩⟩
  · rw [run_byext_find]
    by_cases h : calls.filter (fun x => x.ext = e) = []
    · have h' := (filter_eq_nil_iff_not_exists calls (fun x => x.ext = e)).1 h
      simp only [h, if_true, Option.isSome_none, Bool.false_eq_true, false_iff]
      exact h'
    · have h' := (not_congr (filter_eq_nil_iff_not_exists calls (fun x => x.ext = e))).1 h
      simp only [h, if_false, Option.isSome_some, true_iff]
      exact not_not.1 h'
  · intro s hs
    rw [run_byext_find] at hs
    split at hs
    · cases hs
    · rw [← Option.some.inj hs]
      exact statsOf_exact _
  · rw [run_bytype_find]
    by_cases h : calls.filter (fun x => x.type = k) = []
    · have h' := (filter_eq_nil_iff_not_exists calls (fun x => x.type = k)).1 h
      simp only [h, if_true, Option.isSome_none, Bool.false_eq_true, false_iff]
      exact h'
    · have h' := (not_congr (filter_eq_nil_iff_not_exists calls (fun x => x.type = k))).1 h
      simp only [h, if_false, Option.isSome_some, true_iff]
      exact not_not.1 h'
  · intro s hs
    rw [run_bytype_find] at hs
    split at hs
    · cases hs
    · rw [← Option.some.inj hs]
      exact statsOf_exact _
  · exact UMap.find_addAt_self _ _ _ _
  · exact UMap.addAt_find_ne _ _ _ _
  · intro e' he; exact UMap.find_addAt_other _ he _ _
  · exact UMap.find_addAt_self _ _ _ _
  · exact UMap.addAt_find_ne _ _ _ _
  · intro k' hk; exact UMap.find_addAt_other _ hk _ _

theorem byext_bytype_entries_witness :
    (FileStats.run [callA, callC, callA]).byext.find ".txt" = some ⟨2, 1000, 8192⟩ ∧
    (FileStats.run [callA, callC, callA]).byext.find "" = some ⟨1, 7, 0⟩ ∧
    (FileStats.run [callA, callC, callA]).byext.find ".bin" = Option.none ∧
    (([callA, callC, callA].filter (fun x => x.ext = ".txt")).map (·.size)).sum < 2 ^ 64 ∧
    (1000 : Nat) = (([callA, callC, callA].filter (fun x => x.ext = ".txt")).map (·.size)).sum ∧
    ((FileStats.run [callA]).step callC).byext.find ".txt"
      = (FileStats.run [callA]).byext.find ".txt" :=
  ⟨by decide, by decide, by decide, by decide,
   ((byext_bytype_entries [callA, callC, callA] ".txt" file_type.regular
      (FileStats.run [callA]) callC).1.2 ⟨2, 1000, 8192⟩ (by decide)).2.2.1 (by decide),
   (byext_bytype_entries [callA, callC, callA] ".txt" file_type.regular
      (FileStats.run [callA]) callC).2.2.2.1.2.2 ".txt" (by decide)⟩

set_option maxRecDepth 100000 in
/-- C2 fails as stated: two calls with extension `.a`, of sizes `2 ^ 64 - 1` and 2 and
on-disk sizes `2 ^ 64 - 1` and 3, leave the entry of `.a` (and the entry of their
kind) with `size = 1` and `ondisk = 2`, where the sums over the calls are
`2 ^ 64 + 1` and `2 ^ 64 + 2`. -/
theorem byext_sums_wrap :
    (FileStats.run [callMax, callTwo]).byext.find ".a" = some ⟨2, 1, 2⟩ ∧
    (FileStats.run [callMax, callTwo]).bytype.find file_type.regular = some ⟨2, 1, 2⟩ ∧
    (([callMax, callTwo].filter (fun x => x.ext = ".a")).map (·.size)).sum = 2 ^ 64 + 1 ∧
    (([callMax, callTwo].filter (fun x => x.ext = ".a")).map (·.ondisk)).sum = 2 ^ 64 + 2 ∧
    (2 : Nat) ^ 64 + 1 ≠ 1 := by
  decide

/-! ## C3: the size classifier -/

theorem flattenTable_length (t : List (Nat × Nat)) : (flattenTable t).length = 2 * t.length := by
  induction t with
  | nil => rfl
  | cons p rest ih => obtain ⟨c, u⟩ := p; simp [flattenTable, ih]; omega

theorem loop_refines (sz fb : Nat) (ths : List (Nat × Nat)) :
    ∀ (pre : List Nat) (fuel : Nat), ths.length < fuel →
      GetSizeColor.loop sz (pre ++ flattenTable ths ++ [fb]) fuel (pre.length + 1) fb
        = classify sz ths fb := by
  induction ths with
  | nil =>
    intro pre fuel hf
    obtain ⟨f, rfl⟩ : ∃ f, fuel = f + 1 := ⟨fuel - 1, by simp at hf; omega⟩
    simp [GetSizeColor.loop, flattenTable, classify]
  | cons p rest ih =>
    intro pre fuel hf
    obtain ⟨c, u⟩ := p
    obtain ⟨f, rfl⟩ : ∃ f, fuel = f + 1 := ⟨fuel - 1, by omega⟩
    have hlen : pre.length + 1 < (pre ++ flattenTable ((c, u) :: rest) ++ [fb]).length := by
      simp [flattenTable]
    have hq : pre ++ flattenTable ((c, u) :: rest) ++ [fb]
        = pre ++ (c :: u :: (flattenTable rest ++ [fb])) := by simp [flattenTable]
    have hu : (pre ++ flattenTable ((c, u) :: rest) ++ [fb]).getD (pre.length + 1) 0 = u := by
      rw [hq, List.getD_append_right _ _ _ _ (by omega)]
      simp
    have hc : (pre ++ flattenTable ((c, u) :: rest) ++ [fb]).getD (pre.length + 1 - 1) 0 = c := by
      rw [hq, List.getD_append_right _ _ _ _ (by omega)]
      simp
    rw [GetSizeColor.loop, if_pos hlen, hu, hc]
    by_cases h : sz < u
    · simp [h, classify, List.find?]
    · have hrec := ih (pre ++ [c, u]) f (by simp at hf; omega)
      have hp : pre ++ flattenTable ((c, u) :: rest) ++ [fb]
          = pre ++ [c, u] ++ flattenTable rest ++ [fb] := by simp [flattenTable]
      have hi : pre.length + 1 + 2 = (pre ++ [c, u]).length + 1 := by simp
      rw [if_neg h, hp, hi, hrec]
      simp [classify, List.find?, h]

theorem GetSizeColor_refines (sz fb : Nat) (ths : List (Nat × Nat)) :
    GetSizeColor sz (flattenTable ths ++ [fb])
      = if classify sz ths fb < 16 then some (classify sz ths fb) else Option.none := by
  have h := loop_refines sz fb ths [] (flattenTable ths ++ [fb]).length
    (by simp [flattenTable_length]; omega)
  simp only [List.nil_append, List.length_nil, Nat.zero_add] at h
  simp only [GetSizeColor, List.getLast?_append, List.getLast?_singleton, Option.or_some, h]

theorem size_palette_eq : size_palette = flattenTable defaultThresholds ++ [magenta] := by
  decide

/-- C3: with the default `size_palette`, `GetSizeColor(sz)` is the color paired with
the first threshold whose upper bound strictly exceeds `sz` and the fallback when
none does: teal below 1024, forest below 2^20, ochre below 10*2^20, yellow below
50*2^20, maroon below 100*2^20, red below 2^30, magenta otherwise; the values at 0,
1023, 1024 and 10^12 are teal, teal, forest, magenta; the result is always a bucket
in [0,15]. -/
theorem GetSizeColor_default (sz : Nat) :
    GetSizeColor sz = some (classify sz defaultThresholds magenta) ∧
    GetSizeColor sz = some
      (if sz < 1024 then teal else if sz < 2 ^ 20 then forest
       else if sz < 10 * 2 ^ 20 then ochre else if sz < 50 * 2 ^ 20 then yellow
       else if sz < 100 * 2 ^ 20 then maroon else if sz < 2 ^ 30 then red else magenta) ∧
    (∃ c, GetSizeColor sz = some c ∧ 0 ≤ c ∧ c ≤ 15) ∧
    GetSizeColor 0 = some teal ∧ GetSizeColor 1023 = some teal ∧
    GetSizeColor 1024 = some forest ∧ GetSizeColor 1000000000000 = some magenta := by
  have h2 : classify sz defaultThresholds magenta =
      (if sz < 1024 then teal else if sz < 2 ^ 20 then forest
       else if sz < 10 * 2 ^ 20 then ochre else if sz < 50 * 2 ^ 20 then yellow
       else if sz < 100 * 2 ^ 20 then maroon else if sz < 2 ^ 30 then red else magenta) := by
    simp only [classify, defaultThresholds, List.find?]
    by_cases h1 : sz < 1024
    · simp [h1]
    by_cases h2 : sz < 1048576
    · simp [h1, h2]
    by_cases h3 : sz < 10485760
    · simp [h1, h2, h3]
    by_cases h4 : sz < 52428800
    · simp [h1, h2, h3, h4]
    by_cases h5 : sz < 104857600
    · simp [h1, h2, h3, h4, h5]
    by_cases h6 : sz < 1073741824
    · simp [h1, h2, h3, h4, h5, h6]
    · simp [h1, h2, h3, h4, h5, h6]
  have h3 : classify sz defaultThresholds magenta ≤ 15 := by
    rw [h2]
    repeat' split
    all_goals decide
  have h : GetSizeColor sz = some (classify sz defaultThresholds magenta) := by
    show GetSizeColor sz size_palette = _
    rw [size_palette_eq, GetSizeColor_refines sz magenta defaultThresholds,
      if_pos (Nat.lt_succ_of_le h3)]
  refine ⟨h, by rw [h, h2], ?_, by decide, by decide, by decide, by decide⟩
  exact ⟨_, h, Nat.zero_le _, h3⟩

/-! ## C4, C5, C6: sorting, the top-K listing and the extension table -/

theorem stdSort_sortsBy {α : Type} (comp : α → α → Bool) (key : α → Nat)
    (h : ∀ a b, comp a b = decide (key a > key b)) : SortsBy comp (stdSort comp) := by
  intro l
  haveI : IsTotal α (fun a b => comp b a = false) :=
    ⟨fun a b => by
      simp only [h, decide_eq_false_iff_not, not_lt]
      exact Nat.le_total _ _⟩
  haveI : IsTrans α (fun a b => comp b a = false) :=
    ⟨fun a b c hab hbc => by
      simp only [h, decide_eq_false_iff_not, not_lt] at hab hbc ⊢
      exact Nat.le_trans hbc hab⟩
  exact ⟨List.perm_insertionSort _ l, List.sorted_insertionSort _ l⟩

theorem stdSort_bySizeDesc : SortsBy bySizeDesc (stdSort bySizeDesc) :=
  stdSort_sortsBy bySizeDesc (·.size) (fun _ _ => rfl)

theorem stdSort_byTotalSizeDesc : SortsBy byTotalSizeDesc (stdSort byTotalSizeDesc) :=
  stdSort_sortsBy byTotalSizeDesc (·.2.size) (fun _ _ => rfl)

theorem topFiles_eq_take (sort : (FileInfo → FileInfo → Bool) → List FileInfo → List FileInfo)
    (files : List FileInfo) (k : Nat) :
    topFiles sort files k = (sort bySizeDesc files).take k := by
  simp only [topFiles]
  split
  · rfl
  · rename_i h
    exact (List.take_of_length_le (by omega)).symm

theorem sorted_sizes (sort : (FileInfo → FileInfo → Bool) → List FileInfo → List FileInfo)
    (hsort : SortsBy bySizeDesc (sort bySizeDesc)) (files : List FileInfo) :
    (sort bySizeDesc files).Pairwise (fun a b => a.size ≥ b.size) := by
  refine (hsort files).2.imp ?_
  intro a b hab
  simpa [bySizeDesc] using hab

/-- Sizes of the sorted records: the offered sizes in non-increasing order. -/
theorem sorted_sizes_eq (sort : (FileInfo → FileInfo → Bool) → List FileInfo → List FileInfo)
    (hsort : SortsBy bySizeDesc (sort bySizeDesc)) (files : List FileInfo) :
    (sort bySizeDesc files).map (·.size)
      = (files.map (·.size)).insertionSort (fun a b => a ≥ b) := by
  have h1 : ((sort bySizeDesc files).map (·.size)).Sorted (fun a b => a ≥ b) := by
    exact List.pairwise_map.2 (sorted_sizes sort hsort files)
  have h2 : ((files.map (·.size)).insertionSort (fun a b => a ≥ b)).Sorted (fun a b => a ≥ b) :=
    List.sorted_insertionSort _ _
  have hp : ((sort bySizeDesc files).map (·.size)).Perm
      ((files.map (·.size)).insertionSort (fun a b => a ≥ b)) :=
    ((hsort files).1.map _).trans (List.perm_insertionSort _ _).symm
  exact List.eq_of_perm_of_sorted hp h1 h2

/-- C4: for every list of offered records and every `k`, the top-K step returns
`min k (number offered)` records whose sizes are in non-increasing order, and every
returned record is one of the offered records, returned no more often than it was
offered. -/
theorem topFiles_length_sorted_subperm
    (sort : (FileInfo → FileInfo → Bool) → List FileInfo → List FileInfo)
    (hsort : SortsBy bySizeDesc (sort bySizeDesc)) (files : List FileInfo) (k : Nat) :
    (topFiles sort files k).length = min k files.length ∧
    (topFiles sort files k).Pairwise (fun a b => a.size ≥ b.size) ∧
    (∀ r ∈ topFiles sort files k, r ∈ files) ∧
    (∀ r, (topFiles sort files k).count r ≤ files.count r) ∧
    (topFiles sort files k).Subperm files := by
  have hsub : (topFiles sort files k).Subperm files := by
    rw [topFiles_eq_take]
    exact (List.take_sublist k _).subperm.trans (hsort files).1.subperm
  refine ⟨?_, ?_, ?_, ?_, hsub⟩
  · rw [topFiles_eq_take, List.length_take, (hsort files).1.length_eq]
  · rw [topFiles_eq_take]
    exact (sorted_sizes sort hsort files).sublist (List.take_sublist k _)
  · intro r hr
    exact hsub.subset hr
  · intro r
    exact hsub.count_le r

theorem topFiles_length_sorted_subperm_witness :
    (topFiles stdSort ([10, 50, 5, 50, 1].map fileOfSize) 3).length = min 3 5 ∧
    (topFiles stdSort ([10, 50, 5, 50, 1].map fileOfSize) 7).length = min 7 5 ∧
    (topFiles stdSort ([10, 50, 5, 50, 1].map fileOfSize) 3).Pairwise
      (fun a b => a.size ≥ b.size) :=
  ⟨(topFiles_length_sorted_subperm stdSort stdSort_bySizeDesc
      ([10, 50, 5, 50, 1].map fileOfSize) 3).1,
   by decide,
   (topFiles_length_sorted_subperm stdSort stdSort_bySizeDesc
      ([10, 50, 5, 50, 1].map fileOfSize) 3).2.1⟩

/-- C5: the sizes returned by the top-K step are the `k` largest offered sizes with
duplicates kept: the records not returned are all at most as large as every returned
one, the returned sizes are the first `k` of the offered sizes in non-increasing
order, they are the same for every permutation of the offer order, and sizes
`[10, 50, 5, 50, 1]` with `k = 3` give `[50, 50, 10]`. -/
theorem topFiles_largest_sizes
    (sort : (FileInfo → FileInfo → Bool) → List FileInfo → List FileInfo)
    (hsort : SortsBy bySizeDesc (sort bySizeDesc)) (files : List FileInfo) (k : Nat) :
    (∃ dropped, (topFiles sort files k ++ dropped).Perm files ∧
      ∀ r ∈ topFiles sort files k, ∀ d ∈ dropped, r.size ≥ d.size) ∧
    (topFiles sort files k).map (·.size)
      = ((files.map (·.size)).insertionSort (fun a b => a ≥ b)).take k ∧
    (∀ files' : List FileInfo, files.Perm files' →
      (topFiles sort files' k).map (·.size) = (topFiles sort files k).map (·.size)) ∧
    (files.map (·.size) = [10, 50, 5, 50, 1] →
      (topFiles sort files 3).map (·.size) = [50, 50, 10]) := by
  have hmap : ∀ (fl : List FileInfo) (n : Nat), (topFiles sort fl n).map (·.size)
      = ((fl.map (·.size)).insertionSort (fun a b => a ≥ b)).take n := by
    intro fl n
    rw [topFiles_eq_take, List.map_take, sorted_sizes_eq sort hsort]
  refine ⟨⟨(sort bySizeDesc files).drop k, ?_, ?_⟩, hmap files k, ?_, ?_⟩
  · rw [topFiles_eq_take, List.take_append_drop]
    exact (hsort files).1
  · intro r hr d hd
    rw [topFiles_eq_take] at hr
    have hp := sorted_sizes sort hsort files
    rw [← List.take_append_drop k (sort bySizeDesc files)] at hp
    exact (List.pairwise_append.1 hp).2.2 r hr d hd
  · intro files' hperm
    rw [hmap, hmap]
    congr 1
    exact List.eq_of_perm_of_sorted
      (((List.perm_insertionSort _ _).trans (hperm.symm.map _)).trans
        (List.perm_insertionSort _ _).symm)
      (List.sorted_insertionSort _ _) (List.sorted_insertionSort _ _)
  · intro hs
    rw [hmap, hs]
    decide

theorem topFiles_largest_sizes_witness :
    [10, 50, 5, 50, 1].map fileOfSize = [10, 50, 5, 50, 1].map fileOfSize ∧
    (topFiles stdSort ([10, 50, 5, 50, 1].map fileOfSize) 3).map (·.size) = [50, 50, 10] ∧
    (topFiles stdSort ([1, 50, 50, 5, 10].map fileOfSize) 3).map (·.size)
      = (topFiles stdSort ([10, 50, 5, 50, 1].map fileOfSize) 3).map (·.size) :=
  ⟨rfl,
   (topFiles_largest_sizes stdSort stdSort_bySizeDesc
      ([10, 50, 5, 50, 1].map fileOfSize) 3).2.2.2 (by decide),
   (topFiles_largest_sizes stdSort stdSort_bySizeDesc
      ([10, 50, 5, 50, 1].map fileOfSize) 3).2.2.1 ([1, 50, 50, 5, 10].map fileOfSize)
      (by decide)⟩

/-- C6: for every store built by `Add` calls, the extension-table rows are in
non-increasing order of total logical size, strictly decreasing wherever two totals
differ; there is exactly one row for each distinct extension that was added and no
other row, each row carries the `Stats` of its extension, and the rows are the
`byext` entries rearranged, so extensions with equal totals all appear. -/
theorem extRows_sorted_complete
    (sort : (String × Stats → String × Stats → Bool) →
      List (String × Stats) → List (String × Stats))
    (hsort : SortsBy byTotalSizeDesc (sort byTotalSizeDesc)) (calls : List AddCall) :
    (extRows sort (FileStats.run calls)).Pairwise (fun a b => a.2.size ≥ b.2.size) ∧
    (extRows sort (FileStats.run calls)).Pairwise
      (fun a b => a.2.size ≠ b.2.size → a.2.size > b.2.size) ∧
    (extRows sort (FileStats.run calls)).Perm (FileStats.run calls).byext ∧
    ((extRows sort (FileStats.run calls)).map Prod.fst).Nodup ∧
    (∀ e, e ∈ (extRows sort (FileStats.run calls)).map Prod.fst ↔ ∃ c ∈ calls, c.ext = e) ∧
    (∀ e s, (e, s) ∈ extRows sort (FileStats.run calls) →
      s = statsOf (calls.filter (fun c => c.ext = e))) ∧
    (extRows sort (FileStats.run calls)).length = (calls.map (·.ext)).dedup.length := by
  have hperm : (extRows sort (FileStats.run calls)).Perm (FileStats.run calls).byext :=
    (hsort _).1
  have hsorted : (extRows sort (FileStats.run calls)).Pairwise
      (fun a b => a.2.size ≥ b.2.size) := by
    refine (hsort (FileStats.run calls).byext).2.imp ?_
    intro a b hab
    simpa [byTotalSizeDesc] using hab
  have hnd : ((extRows sort (FileStats.run calls)).map Prod.fst).Nodup :=
    ((hperm.map Prod.fst).nodup_iff).2 (run_byext_nodup calls)
  have hkeys : ∀ e, e ∈ (extRows sort (FileStats.run calls)).map Prod.fst ↔
      ∃ c ∈ calls, c.ext = e := by
    intro e
    rw [(hperm.map Prod.fst).mem_iff, ← UMap.find_isSome_iff, run_byext_find]
    by_cases h : calls.filter (fun x => x.ext = e) = []
    · have h' := (filter_eq_nil_iff_not_exists calls (fun x => x.ext = e)).1 h
      simp only [h, if_true, Option.isSome_none, Bool.false_eq_true, false_iff]
      exact h'
    · have h' := (not_congr (filter_eq_nil_iff_not_exists calls (fun x => x.ext = e))).1 h
      simp only [h, if_false, Option.isSome_some, true_iff]
      exact not_not.1 h'
  refine ⟨hsorted, ?_, hperm, hnd, hkeys, ?_, ?_⟩
  · refine hsorted.imp ?_
    intro a b hab hne
    exact lt_of_le_of_ne hab (Ne.symm hne)
  · intro e s hes
    have hmem : (e, s) ∈ (FileStats.run calls).byext := hperm.mem_iff.1 hes
    have hfind := UMap.find_of_mem _ (run_byext_nodup calls) e s hmem
    rw [run_byext_find] at hfind
    split at hfind
    · cases hfind
    · exact (Option.some.inj hfind).symm
  · have h1 : ((extRows sort (FileStats.run calls)).map Prod.fst).Perm
        (calls.map (·.ext)).dedup := by
      rw [List.perm_ext_iff_of_nodup hnd (List.nodup_dedup _)]
      intro e
      rw [hkeys, List.mem_dedup, List.mem_map]
    simpa using h1.length_eq

theorem extRows_sorted_complete_witness :
    extRows stdSort (FileStats.run [callA, callB, callC, callA])
      = [(".bin", ⟨1, 2000000, 2002944⟩), (".txt", ⟨2, 1000, 8192⟩), ("", ⟨1, 7, 0⟩)] ∧
    (extRows stdSort (FileStats.run [callA, callB, callC, callA])).length
      = ([callA, callB, callC, callA].map (·.ext)).dedup.length :=
  ⟨by decide,
   (extRows_sorted_complete stdSort stdSort_byTotalSizeDesc
      [callA, callB, callC, callA]).2.2.2.2.2.2⟩

/-! ## C7: `Stats::Avg` -/

theorem ilog2_loop_spec (fuel : Nat) :
    ∀ n, n ≤ fuel → n ≠ 0 →
      2 ^ ilog2.loop fuel n ≤ n ∧ n < 2 ^ (ilog2.loop fuel n + 1) := by
  induction fuel with
  | zero =>
    intro n h1 h2
    omega
  | succ f ih =>
    intro n h1 h2
    unfold ilog2.loop
    split_ifs with h
    · exact ⟨by simp; omega, by simp; omega⟩
    · obtain ⟨ha, hb⟩ := ih (n / 2) (by omega) (by omega)
      have e1 : 2 ^ (ilog2.loop f (n / 2) + 1) = 2 * 2 ^ ilog2.loop f (n / 2) := by
        rw [Nat.pow_succ, Nat.mul_comm]
      have e2 : 2 ^ (ilog2.loop f (n / 2) + 1 + 1) = 2 * 2 ^ (ilog2.loop f (n / 2) + 1) := by
        rw [Nat.pow_succ, Nat.mul_comm]
      rw [e2, e1]
      rw [e1] at hb
      constructor <;> omega

theorem ilog2_self_le {n : Nat} (h : n ≠ 0) : 2 ^ ilog2 n ≤ n :=
  (ilog2_loop_spec n n (Nat.le_refl n) h).1

theorem lt_ilog2_self {n : Nat} (h : n ≠ 0) : n < 2 ^ (ilog2 n + 1) :=
  (ilog2_loop_spec n n (Nat.le_refl n) h).2

theorem rne_mul_le (n d : Nat) (hd : 0 < d) : rne n d * (2 * d) ≤ 2 * n + d := by
  have h := Nat.div_add_mod n d
  have hr := Nat.mod_lt n hd
  have e1 : n / d * (2 * d) = 2 * (d * (n / d)) := by ring
  have e2 : (n / d + 1) * (2 * d) = 2 * (d * (n / d)) + 2 * d := by ring
  unfold rne
  split_ifs <;> first | (rw [e1]; omega) | (rw [e2]; omega)

theorem binadeShift_spec (n d : Nat) (hn : n ≠ 0) :
    2 ^ 52 * d ≤ n * 2 ^ binadeShift n d := by
  unfold binadeShift
  simp only
  split_ifs with h
  · exact h
  · have hd : 2 ^ 52 * d ≠ 0 := by
      intro h0
      rw [h0] at h
      exact h (Nat.zero_le _)
    have h1 : 2 ^ 52 * d < 2 ^ (ilog2 (2 ^ 52 * d) + 1) := lt_ilog2_self hd
    have h2 : 2 ^ ilog2 n ≤ n := ilog2_self_le hn
    have h3 : 2 ^ (ilog2 (2 ^ 52 * d) + 1)
        ≤ 2 ^ (ilog2 n + (ilog2 (2 ^ 52 * d) - ilog2 n + 1)) :=
      Nat.pow_le_pow_right (by norm_num) (by omega)
    have h4 : 2 ^ (ilog2 n + (ilog2 (2 ^ 52 * d) - ilog2 n + 1))
        = 2 ^ ilog2 n * 2 ^ (ilog2 (2 ^ 52 * d) - ilog2 n + 1) := Nat.pow_add _ _ _
    have h5 : 2 ^ ilog2 n * 2 ^ (ilog2 (2 ^ 52 * d) - ilog2 n + 1)
        ≤ n * 2 ^ (ilog2 (2 ^ 52 * d) - ilog2 n + 1) := Nat.mul_le_mul_right _ h2
    exact Nat.le_of_lt (Nat.lt_of_lt_of_le h1 (Nat.le_trans (h4 ▸ h3) h5))

/-- The shift is the least one: the scaled quotient stays below `2 ^ 53`, so that
`roundToDouble` keeps exactly 53 significant bits. -/
theorem binadeShift_lt (n d : Nat) (hn : n ≠ 0) (hd : d ≠ 0) (hq : ¬ 2 ^ 53 * d ≤ n) :
    n * 2 ^ binadeShift n d < 2 ^ 53 * d := by
  have hd0 : 2 ^ 52 * d ≠ 0 := Nat.mul_ne_zero (by norm_num) hd
  have h1 : 2 ^ ilog2 (2 ^ 52 * d) ≤ 2 ^ 52 * d := ilog2_self_le hd0
  have h2 : n < 2 ^ (ilog2 n + 1) := lt_ilog2_self hn
  have e53 : 2 ^ 53 * d = 2 * (2 ^ 52 * d) := by ring
  rw [e53]
  have hq' : n < 2 * (2 ^ 52 * d) := by
    rw [← e53]
    exact Nat.lt_of_not_le hq
  unfold binadeShift
  simp only
  generalize 2 ^ 52 * d = X at h1 hq' ⊢
  generalize ilog2 X = L at h1 ⊢
  generalize ilog2 n = l at h2 ⊢
  split_ifs with h
  · by_cases hk : L - l = 0
    · rw [hk, Nat.pow_zero, Nat.mul_one]
      exact hq'
    · have e : l + 1 + (L - l) = L + 1 := by omega
      have h3 : n * 2 ^ (L - l) < 2 ^ (l + 1) * 2 ^ (L - l) :=
        Nat.mul_lt_mul_of_pos_right h2 (Nat.two_pow_pos _)
      have e2 : 2 ^ (l + 1) * 2 ^ (L - l) = 2 * 2 ^ L := by
        rw [← Nat.pow_add, e, Nat.pow_succ, Nat.mul_comm]
      rw [e2] at h3
      omega
  · have h3 : n * 2 ^ (L - l) < X := Nat.lt_of_not_le h
    have e2 : n * 2 ^ (L - l + 1) = 2 * (n * 2 ^ (L - l)) := by
      rw [Nat.pow_succ]; ring
    rw [e2]
    omega

theorem toDouble_small (n : Nat) (h : n < 2 ^ 53) : toDouble n = ⟨n, 0⟩ := by
  unfold toDouble
  rw [if_pos h]

theorem toDouble_scale (n : Nat) : (toDouble n).scale = 0 := by
  unfold toDouble
  split_ifs <;> rfl

theorem log2_sub_spec (n : Nat) (h : 2 ^ 53 ≤ n) :
    2 ^ 52 * 2 ^ (ilog2 n - 52) ≤ n ∧ n < 2 ^ 53 * 2 ^ (ilog2 n - 52) ∧
      1 ≤ ilog2 n - 52 := by
  have hn : n ≠ 0 := by
    intro h0
    rw [h0] at h
    exact absurd h (by norm_num)
  have h53 : 53 < ilog2 n + 1 :=
    (Nat.pow_lt_pow_iff_right (by norm_num : 1 < 2)).1
      (Nat.lt_of_le_of_lt h (lt_ilog2_self hn))
  have e1 : 52 + (ilog2 n - 52) = ilog2 n := by omega
  have e2 : 53 + (ilog2 n - 52) = ilog2 n + 1 := by omega
  refine ⟨?_, ?_, by omega⟩
  · rw [← Nat.pow_add, e1]
    exact ilog2_self_le hn
  · rw [← Nat.pow_add, e2]
    exact lt_ilog2_self hn

theorem rne_le_succ (n d : Nat) : rne n d ≤ n / d + 1 := by
  unfold rne
  split_ifs <;> omega

theorem rne_mul_ge (n d : Nat) (hd : 0 < d) : 2 * n ≤ rne n d * (2 * d) + d := by
  have h := Nat.div_add_mod n d
  have hr := Nat.mod_lt n hd
  have e1 : n / d * (2 * d) = 2 * (d * (n / d)) := by ring
  have e2 : (n / d + 1) * (2 * d) = 2 * (d * (n / d)) + 2 * d := by ring
  unfold rne
  split_ifs <;> first | (rw [e1]; omega) | (rw [e2]; omega)

theorem rne_mul_self (q d : Nat) (hd : 0 < d) : rne (q * d) d = q := by
  unfold rne
  rw [Nat.mul_mod_left, Nat.mul_div_cancel _ hd]
  simp [hd]

theorem pow_exp_lt_of_le_of_lt {a b x : Nat} (h1 : 2 ^ a ≤ x) (h2 : x < 2 ^ b) : a < b :=
  (Nat.pow_lt_pow_iff_right (by norm_num : 1 < 2)).1 (Nat.lt_of_le_of_lt h1 h2)

/-- Every converted integer has at most 53 significant bits. -/
theorem toDouble_repr (n : Nat) : ∃ m e, (toDouble n).num = m * 2 ^ e ∧ m < 2 ^ 53 := by
  by_cases h : n < 2 ^ 53
  · exact ⟨n, 0, by rw [toDouble_small n h, Nat.pow_zero, Nat.mul_one], h⟩
  · obtain ⟨_, h2, _⟩ := log2_sub_spec n (Nat.le_of_not_lt h)
    simp only [toDouble, h, if_false]
    generalize ilog2 n - 52 = E at h2 ⊢
    have hq : n / 2 ^ E < 2 ^ 53 := (Nat.div_lt_iff_lt_mul (Nat.two_pow_pos E)).2 h2
    have hr := rne_le_succ n (2 ^ E)
    by_cases hlt : rne n (2 ^ E) < 2 ^ 53
    · exact ⟨_, E, rfl, hlt⟩
    · have he : rne n (2 ^ E) = 2 ^ 53 := by omega
      refine ⟨2 ^ 52, E + 1, ?_, by norm_num⟩
      rw [he, Nat.pow_succ 2 E]
      ring

/-- Dividing a value of at most 53 significant bits by a power of two is exact. -/
theorem roundToDouble_exact (m e p : Nat) (hm : m < 2 ^ 53) :
    (roundToDouble (m * 2 ^ e) (2 ^ p)).num * 2 ^ p
      = m * 2 ^ e * 2 ^ (roundToDouble (m * 2 ^ e) (2 ^ p)).scale := by
  have hlt : m * 2 ^ e < 2 ^ (53 + e) := by
    rw [Nat.pow_add]
    exact Nat.mul_lt_mul_of_pos_right hm (Nat.two_pow_pos e)
  by_cases h0 : m * 2 ^ e = 0
  · simp [roundToDouble, h0]
  by_cases hbig : 2 ^ 53 * 2 ^ p ≤ m * 2 ^ e
  · simp only [roundToDouble, h0, hbig, if_true, if_false, Nat.pow_zero, Nat.mul_one]
    have ht : 2 ^ 53 ≤ m * 2 ^ e / 2 ^ p :=
      (Nat.le_div_iff_mul_le (Nat.two_pow_pos p)).2 hbig
    obtain ⟨h1, _, _⟩ := log2_sub_spec _ ht
    generalize ilog2 (m * 2 ^ e / 2 ^ p) - 52 = E at h1 ⊢
    have h2 : 2 ^ 52 * 2 ^ E * 2 ^ p ≤ m * 2 ^ e :=
      Nat.le_trans (Nat.mul_le_mul_right _ h1) (Nat.div_mul_le_self _ _)
    rw [← Nat.pow_add, ← Nat.pow_add] at h2
    have hexp : 52 + E + p < 53 + e := pow_exp_lt_of_le_of_lt h2 hlt
    obtain ⟨c, rfl⟩ : ∃ c, e = c + (p + E) := ⟨e - (p + E), by omega⟩
    have hN : m * 2 ^ (c + (p + E)) = m * 2 ^ c * (2 ^ p * 2 ^ E) := by
      rw [Nat.pow_add, Nat.pow_add, Nat.mul_assoc]
    rw [hN, rne_mul_self _ _ (Nat.mul_pos (Nat.two_pow_pos p) (Nat.two_pow_pos E))]
    ring
  · simp only [roundToDouble, h0, hbig, if_false]
    have hk := binadeShift_spec (m * 2 ^ e) (2 ^ p) h0
    generalize binadeShift (m * 2 ^ e) (2 ^ p) = k at hk ⊢
    have h2 : 2 ^ (52 + p) ≤ m * 2 ^ e * 2 ^ k := by
      rw [Nat.pow_add]; exact hk
    have hlt2 : m * 2 ^ e * 2 ^ k < 2 ^ (53 + e + k) := by
      rw [Nat.pow_add 2 (53 + e) k]
      exact Nat.mul_lt_mul_of_pos_right hlt (Nat.two_pow_pos k)
    have hexp : 52 + p < 53 + e + k := pow_exp_lt_of_le_of_lt h2 hlt2
    obtain ⟨c, hc⟩ : ∃ c, e + k = c + p := ⟨e + k - p, by omega⟩
    have hN : m * 2 ^ e * 2 ^ k = m * 2 ^ c * 2 ^ p := by
      rw [Nat.mul_assoc, ← Nat.pow_add, hc, Nat.pow_add, Nat.mul_assoc]
    rw [hN, rne_mul_self _ _ (Nat.two_pow_pos p)]

theorem div_pow2_exact (bytes p : Nat) (hp : 2 ^ p < 2 ^ 53) :
    ∃ v, Dbl.div (toDouble bytes) (toDouble (2 ^ p)) = some v ∧
      v.num * 2 ^ p = (toDouble bytes).num * 2 ^ v.scale := by
  obtain ⟨m, e, hme, hm⟩ := toDouble_repr bytes
  have hne : 2 ^ p ≠ 0 := Nat.pos_iff_ne_zero.1 (Nat.two_pow_pos p)
  have hd : Dbl.div (toDouble bytes) (toDouble (2 ^ p))
      = some (roundToDouble ((toDouble bytes).num * 2 ^ 0) (2 ^ p * 2 ^ (toDouble bytes).scale)) := by
    simp only [Dbl.div, toDouble_small _ hp, hne, if_false]
  refine ⟨_, hd, ?_⟩
  simp only [toDouble_scale, Nat.pow_zero, Nat.mul_one, hme]
  exact roundToDouble_exact m e p hm

theorem hundredths_bounds (legacy : Bool) (v : Dbl) :
    hundredths legacy v * (2 * 2 ^ v.scale) ≤ 2 * (100 * v.num) + 2 ^ v.scale ∧
    2 * (100 * v.num) ≤ hundredths legacy v * (2 * 2 ^ v.scale) + 2 ^ v.scale := by
  have hd : 0 < 2 ^ v.scale := Nat.two_pow_pos _
  cases legacy with
  | false =>
    simp only [hundredths, Bool.false_eq_true, if_false]
    exact ⟨rne_mul_le _ _ hd, rne_mul_ge _ _ hd⟩
  | true =>
    simp only [hundredths, if_true, rna]
    have h1 : (2 * (100 * v.num) + 2 ^ v.scale) / (2 * 2 ^ v.scale) * (2 * 2 ^ v.scale)
        ≤ 2 * (100 * v.num) + 2 ^ v.scale := Nat.div_mul_le_self _ _
    have h2 : 2 * (100 * v.num) + 2 ^ v.scale
        < ((2 * (100 * v.num) + 2 ^ v.scale) / (2 * 2 ^ v.scale) + 1) * (2 * 2 ^ v.scale) :=
      (Nat.div_lt_iff_lt_mul (by omega)).1 (Nat.lt_succ_self _)
    refine ⟨h1, ?_⟩
    rw [Nat.add_mul, Nat.one_mul] at h2
    omega

/-- The text printed for `bytes / 2 ^ p`: some number `h` of hundredths, the nearest
to the quotient. -/
theorem format_div_pow2 (legacy : Bool) (bytes p : Nat) (hp : 2 ^ p < 2 ^ 53) (unit : String) :
    ∃ h, (Dbl.div (toDouble bytes) (toDouble (2 ^ p))).map
          (fun v => format2f legacy v ++ unit) = some (renderHundredths h ++ unit) ∧
      2 * h * 2 ^ p ≤ 200 * (toDouble bytes).num + 2 ^ p ∧
      200 * (toDouble bytes).num ≤ 2 * h * 2 ^ p + 2 ^ p := by
  obtain ⟨v, hv, hex⟩ := div_pow2_exact bytes p hp
  obtain ⟨b1, b2⟩ := hundredths_bounds legacy v
  refine ⟨hundredths legacy v, by rw [hv]; rfl, ?_, ?_⟩
  · have hs : 0 < 2 ^ v.scale := Nat.two_pow_pos _
    apply Nat.le_of_mul_le_mul_right _ hs
    have := Nat.mul_le_mul_right (2 ^ p) b1
    calc 2 * hundredths legacy v * 2 ^ p * 2 ^ v.scale
        = hundredths legacy v * (2 * 2 ^ v.scale) * 2 ^ p := by ring
      _ ≤ (2 * (100 * v.num) + 2 ^ v.scale) * 2 ^ p := this
      _ = 200 * (v.num * 2 ^ p) + 2 ^ p * 2 ^ v.scale := by ring
      _ = (200 * (toDouble bytes).num + 2 ^ p) * 2 ^ v.scale := by rw [hex]; ring
  · have hs : 0 < 2 ^ v.scale := Nat.two_pow_pos _
    apply Nat.le_of_mul_le_mul_right _ hs
    have := Nat.mul_le_mul_right (2 ^ p) b2
    calc 200 * (toDouble bytes).num * 2 ^ v.scale
        = 2 * (100 * (v.num * 2 ^ p)) := by rw [hex]; ring
      _ = 2 * (100 * v.num) * 2 ^ p := by ring
      _ ≤ (hundredths legacy v * (2 * 2 ^ v.scale) + 2 ^ v.scale) * 2 ^ p := this
      _ = (2 * hundredths legacy v * 2 ^ p + 2 ^ p) * 2 ^ v.scale := by ring

theorem KB_eq : KB = 2 ^ 10 := by decide

theorem MB_eq : MB = 2 ^ 20 := by decide

theorem GB_eq : GB = 2 ^ 30 := by decide

theorem renderHundredths_eq (h : Nat) :
    renderHundredths h
      = Nat.repr (h / 100) ++ "." ++ String.mk [Nat.digitChar (h / 10 % 10), Nat.digitChar (h % 10)] := by
  have e1 : h % 100 / 10 % 10 = h / 10 % 10 := by omega
  have e2 : h % 100 % 10 = h % 10 := by omega
  simp only [renderHundredths, twoDigits, e1, e2]

/-- From `2 ^ 53` on, the conversion to `double` yields a nearest multiple of the
spacing `2 ^ e` of the binade of `n`, the even one when `n` is halfway. -/
theorem toDouble_nearest (n : Nat) (h : 2 ^ 53 ≤ n) :
    ∃ e, 2 ^ 52 * 2 ^ e ≤ n ∧ n < 2 ^ 53 * 2 ^ e ∧ 2 ^ e ∣ (toDouble n).num ∧
      2 * (toDouble n).num ≤ 2 * n + 2 ^ e ∧ 2 * n ≤ 2 * (toDouble n).num + 2 ^ e ∧
      ((2 * n = 2 * (toDouble n).num + 2 ^ e ∨ 2 * (toDouble n).num = 2 * n + 2 ^ e) →
        (toDouble n).num / 2 ^ e % 2 = 0) := by
  obtain ⟨h1, h2, _⟩ := log2_sub_spec n h
  have hnot : ¬ n < 2 ^ 53 := Nat.not_lt.2 h
  refine ⟨ilog2 n - 52, h1, h2, ?_⟩
  simp only [toDouble, hnot, if_false]
  have hd : 0 < 2 ^ (ilog2 n - 52) := Nat.two_pow_pos _
  generalize 2 ^ (ilog2 n - 52) = d at hd
  have hle := rne_mul_le n d hd
  have hge := rne_mul_ge n d hd
  have e1 : rne n d * (2 * d) = 2 * (rne n d * d) := by ring
  rw [e1] at hle hge
  refine ⟨Nat.dvd_mul_left _ _, hle, hge, ?_⟩
  intro htie
  rw [Nat.mul_div_cancel _ hd]
  have hdm := Nat.div_add_mod n d
  have hm := Nat.mod_lt n hd
  have e2 : n / d * d = d * (n / d) := Nat.mul_comm _ _
  have e3 : (n / d + 1) * d = d * (n / d) + d := by ring
  unfold rne at htie ⊢
  split_ifs at htie ⊢ with c1 c2 c3
  · rw [e2] at htie; omega
  · rw [e3] at htie; omega
  · exact c3
  · omega

set_option maxRecDepth 100000 in
/-- C8, as the code has it: `SizeStr` picks the unit by the strict binary ladder:
below `2 ^ 20` bytes the text is the value `bytes / 1024` with two decimals and
` KB`, from `2 ^ 20` and below `2 ^ 30` it is `bytes / 2 ^ 20` and ` MB`, otherwise
the unit is ` GB`. The text is the decimal integer part of the printed hundredths
`h`, a point and the two digits of `h`, and `h` is nearest to the value. Below
`2 ^ 53` bytes the value is the exact quotient; from `2 ^ 53` on it is `x / 2 ^ 30`
for the `double` `x` nearest to `bytes` (a multiple of the spacing `2 ^ e` of the
binade of `bytes`, the even one on a tie). 1048576 gives `1.00 MB`, 1073741824 gives
`1.00 GB`, 1023 gives `1.00 KB`. -/
theorem SizeStr_unit_ladder (legacy : Bool) (bytes : Nat) :
    (bytes < 2 ^ 20 → ∃ h,
      SizeStr legacy bytes = some (Nat.repr (h / 100) ++ "." ++
        String.mk [Nat.digitChar (h / 10 % 10), Nat.digitChar (h % 10)] ++ " KB") ∧
      2 * h * 2 ^ 10 ≤ 200 * bytes + 2 ^ 10 ∧ 200 * bytes ≤ 2 * h * 2 ^ 10 + 2 ^ 10) ∧
    (2 ^ 20 ≤ bytes → bytes < 2 ^ 30 → ∃ h,
      SizeStr legacy bytes = some (Nat.repr (h / 100) ++ "." ++
        String.mk [Nat.digitChar (h / 10 % 10), Nat.digitChar (h % 10)] ++ " MB") ∧
      2 * h * 2 ^ 20 ≤ 200 * bytes + 2 ^ 20 ∧ 200 * bytes ≤ 2 * h * 2 ^ 20 + 2 ^ 20) ∧
    (2 ^ 30 ≤ bytes → bytes < 2 ^ 53 → ∃ h,
      SizeStr legacy bytes = some (Nat.repr (h / 100) ++ "." ++
        String.mk [Nat.digitChar (h / 10 % 10), Nat.digitChar (h % 10)] ++ " GB") ∧
      2 * h * 2 ^ 30 ≤ 200 * bytes + 2 ^ 30 ∧ 200 * bytes ≤ 2 * h * 2 ^ 30 + 2 ^ 30) ∧
    (2 ^ 53 ≤ bytes → ∃ h x e,
      SizeStr legacy bytes = some (Nat.repr (h / 100) ++ "." ++
        String.mk [Nat.digitChar (h / 10 % 10), Nat.digitChar (h % 10)] ++ " GB") ∧
      2 * h * 2 ^ 30 ≤ 200 * x + 2 ^ 30 ∧ 200 * x ≤ 2 * h * 2 ^ 30 + 2 ^ 30 ∧
      2 ^ 52 * 2 ^ e ≤ bytes ∧ bytes < 2 ^ 53 * 2 ^ e ∧ 2 ^ e ∣ x ∧
      2 * x ≤ 2 * bytes + 2 ^ e ∧ 2 * bytes ≤ 2 * x + 2 ^ e ∧
      ((2 * bytes = 2 * x + 2 ^ e ∨ 2 * x = 2 * bytes + 2 ^ e) → x / 2 ^ e % 2 = 0)) ∧
    SizeStr legacy 1048576 = some "1.00 MB" ∧
    SizeStr legacy 1073741824 = some "1.00 GB" ∧
    SizeStr legacy 1023 = some "1.00 KB" ∧
    SizeStr legacy 1048575 = some "1024.00 KB" ∧
    SizeStr legacy 1263 = some "1.23 KB" := by
  have hsmall : bytes < 2 ^ 53 → (toDouble bytes).num = bytes := by
    intro h
    rw [toDouble_small bytes h]
  have hGB : 2 ^ 30 ≤ bytes → ∃ h,
      SizeStr legacy bytes = some (Nat.repr (h / 100) ++ "." ++
        String.mk [Nat.digitChar (h / 10 % 10), Nat.digitChar (h % 10)] ++ " GB") ∧
      2 * h * 2 ^ 30 ≤ 200 * (toDouble bytes).num + 2 ^ 30 ∧
      200 * (toDouble bytes).num ≤ 2 * h * 2 ^ 30 + 2 ^ 30 := by
    intro hb
    obtain ⟨h, h1, h2, h3⟩ := format_div_pow2 legacy bytes 30 (by norm_num) " GB"
    refine ⟨h, ?_, h2, h3⟩
    have hge : ¬ bytes < GB := by rw [GB_eq]; exact Nat.not_lt.2 hb
    have hge2 : ¬ bytes < MB := by
      rw [MB_eq]
      exact Nat.not_lt.2 (Nat.le_trans (by norm_num) hb)
    simp only [SizeStr, hge, hge2, if_false]
    rw [GB_eq, ← renderHundredths_eq]
    exact h1
  refine ⟨?_, ?_, ?_, ?_, ?_, ?_, ?_, ?_, ?_⟩
  · intro hb
    obtain ⟨h, h1, h2, h3⟩ := format_div_pow2 legacy bytes 10 (by norm_num) " KB"
    rw [hsmall (Nat.lt_trans hb (by norm_num))] at h2 h3
    refine ⟨h, ?_, h2, h3⟩
    have hlt : bytes < MB := by rw [MB_eq]; exact hb
    simp only [SizeStr, hlt, if_true, KB_eq]
    rw [← renderHundredths_eq]
    exact h1
  · intro hb1 hb2
    obtain ⟨h, h1, h2, h3⟩ := format_div_pow2 legacy bytes 20 (by norm_num) " MB"
    rw [hsmall (Nat.lt_trans hb2 (by norm_num))] at h2 h3
    refine ⟨h, ?_, h2, h3⟩
    have hge : ¬ bytes < MB := by rw [MB_eq]; exact Nat.not_lt.2 hb1
    have hlt : bytes < GB := by rw [GB_eq]; exact hb2
    simp only [SizeStr, hge, hlt, if_true, if_false]
    rw [MB_eq, ← renderHundredths_eq]
    exact h1
  · intro hb hlt
    obtain ⟨h, h1, h2, h3⟩ := hGB hb
    rw [hsmall hlt] at h2 h3
    exact ⟨h, h1, h2, h3⟩
  · intro hb
    obtain ⟨h, h1, h2, h3⟩ := hGB (Nat.le_trans (by norm_num) hb)
    obtain ⟨e, n1, n2, n3, n4, n5, n6⟩ := toDouble_nearest bytes hb
    exact ⟨h, (toDouble bytes).num, e, h1, h2, h3, n1, n2, n3, n4, n5, n6⟩
  · cases legacy <;> decide
  · cases legacy <;> decide
  · cases legacy <;> decide
  · cases legacy <;> decide
  · cases legacy <;> decide

theorem SizeStr_unit_ladder_witness :
    (1536 < 2 ^ 20 ∧ 2 ^ 20 ≤ 5 * 2 ^ 20 ∧ 5 * 2 ^ 20 < 2 ^ 30 ∧
      2 ^ 53 ≤ 9007199270847119) ∧
    SizeStr false 1536 = some "1.50 KB" ∧
    (∃ h, SizeStr false 1536 = some (Nat.repr (h / 100) ++ "." ++
        String.mk [Nat.digitChar (h / 10 % 10), Nat.digitChar (h % 10)] ++ " KB") ∧
      2 * h * 2 ^ 10 ≤ 200 * 1536 + 2 ^ 10 ∧ 200 * 1536 ≤ 2 * h * 2 ^ 10 + 2 ^ 10) ∧
    (∃ h, SizeStr true (5 * 2 ^ 20) = some (Nat.repr (h / 100) ++ "." ++
        String.mk [Nat.digitChar (h / 10 % 10), Nat.digitChar (h % 10)] ++ " MB") ∧
      2 * h * 2 ^ 20 ≤ 200 * (5 * 2 ^ 20) + 2 ^ 20 ∧
      200 * (5 * 2 ^ 20) ≤ 2 * h * 2 ^ 20 + 2 ^ 20) ∧
    (∃ h x e, SizeStr false 9007199270847119 = some (Nat.repr (h / 100) ++ "." ++
        String.mk [Nat.digitChar (h / 10 % 10), Nat.digitChar (h % 10)] ++ " GB") ∧
      2 * h * 2 ^ 30 ≤ 200 * x + 2 ^ 30 ∧ 200 * x ≤ 2 * h * 2 ^ 30 + 2 ^ 30 ∧
      2 ^ 52 * 2 ^ e ≤ 9007199270847119 ∧ 9007199270847119 < 2 ^ 53 * 2 ^ e ∧ 2 ^ e ∣ x ∧
      2 * x ≤ 2 * 9007199270847119 + 2 ^ e ∧ 2 * 9007199270847119 ≤ 2 * x + 2 ^ e ∧
      ((2 * 9007199270847119 = 2 * x + 2 ^ e ∨ 2 * x = 2 * 9007199270847119 + 2 ^ e) →
        x / 2 ^ e % 2 = 0)) :=
  ⟨⟨by decide, by decide, by decide, by decide⟩, by decide,
   (SizeStr_unit_ladder false 1536).1 (by decide),
   (SizeStr_unit_ladder true (5 * 2 ^ 20)).2.1 (by decide) (by decide),
   (SizeStr_unit_ladder false 9007199270847119).2.2.2.1 (by decide)⟩

set_option maxRecDepth 100000 in
/-- C8 fails as stated: for 9007199270847119 bytes (`2 ^ 53 + 16106127`) the quotient
`bytes / 2 ^ 30` is 8388608.01499999966, whose nearest hundredth is 838860801, and
`SizeStr` prints `8388608.02 GB` under either tie rule of the C runtime, because the
byte count is first converted to the `double` 9007199270847120. -/
theorem SizeStr_large_not_nearest :
    SizeStr false 9007199270847119 = some "8388608.02 GB" ∧
    SizeStr true 9007199270847119 = some "8388608.02 GB" ∧
    (2 * 838860801 * 2 ^ 30 ≤ 200 * 9007199270847119 + 2 ^ 30 ∧
      200 * 9007199270847119 ≤ 2 * 838860801 * 2 ^ 30 + 2 ^ 30) ∧
    ¬ (2 * 838860802 * 2 ^ 30 ≤ 200 * 9007199270847119 + 2 ^ 30) ∧
    toDouble 9007199270847119 = ⟨9007199270847120, 0⟩ := by
  decide

/-! ## C9: `BytesStr` -/

/-- Consecutive `put` calls. -/
theorem put_of_room (sf : sformatter) (c : Char) (h : sf.pos + 1 < bufSize) :
    sf.put c = { sf with buf := Function.update sf.buf sf.pos c, pos := sf.pos + 1 } := by
  have hl : 1 < sf.left := by
    unfold sformatter.left
    omega
  simp only [sformatter.put, sformatter.check_wrap, hl, if_true]

theorem foldl_put_pos (cs : List Char) :
    ∀ sf : sformatter, sf.pos + cs.length < bufSize →
      (cs.foldl sformatter.put sf).pos = sf.pos + cs.length ∧
      ∀ q, q < sf.pos → (cs.foldl sformatter.put sf).buf q = sf.buf q := by
  induction cs with
  | nil =>
    intro sf _
    exact ⟨rfl, fun _ _ => rfl⟩
  | cons c rest ih =>
    intro sf h
    have h1 : sf.pos + 1 < bufSize := by
      simp only [List.length_cons] at h
      omega
    have hput := put_of_room sf c h1
    have hp : (sf.put c).pos = sf.pos + 1 := by rw [hput]
    obtain ⟨i1, i2⟩ := ih (sf.put c) (by
      rw [hp]
      simp only [List.length_cons] at h
      omega)
    refine ⟨?_, ?_⟩
    · rw [List.foldl_cons, i1, hp, List.length_cons]
      omega
    · intro q hq
      rw [List.foldl_cons, i2 q (by rw [hp]; omega), hput]
      exact Function.update_noteq (Nat.ne_of_lt hq) _ _

/-- Reading back what was just written: a text without `NUL` followed by `NUL`. -/
theorem cstrAt_foldl_put (body : List Char) (hb : ∀ c ∈ body, c ≠ NUL) :
    ∀ (sf : sformatter) (fuel : Nat), sf.pos + (body.length + 1) < bufSize →
      body.length < fuel →
      cstrAt ((body ++ [NUL]).foldl sformatter.put sf).buf fuel sf.pos = body := by
  induction body with
  | nil =>
    intro sf fuel h hf
    obtain ⟨f, rfl⟩ : ∃ f, fuel = f + 1 := ⟨fuel - 1, by simp at hf; omega⟩
    have hput := put_of_room sf NUL (by simp at h; omega)
    simp only [List.nil_append, List.foldl_cons, List.foldl_nil, cstrAt, hput,
      Function.update_same, if_true]
  | cons c rest ih =>
    intro sf fuel h hf
    obtain ⟨f, rfl⟩ : ∃ f, fuel = f + 1 := ⟨fuel - 1, by simp at hf; omega⟩
    simp only [List.length_cons] at h hf
    have hput := put_of_room sf c (by omega)
    have hp : (sf.put c).pos = sf.pos + 1 := by rw [hput]
    have hc : c ≠ NUL := hb c (List.mem_cons_self _ _)
    have hrest : ∀ x ∈ rest, x ≠ NUL := fun x hx => hb x (List.mem_cons_of_mem _ hx)
    have hroom : (sf.put c).pos + ((rest ++ [NUL]).length) < bufSize := by
      rw [hp, List.length_append, List.length_singleton]
      omega
    have hkeep := (foldl_put_pos (rest ++ [NUL]) (sf.put c) hroom).2 sf.pos (by rw [hp]; omega)
    have hval : ((c :: rest ++ [NUL]).foldl sformatter.put sf).buf sf.pos = c := by
      rw [List.cons_append, List.foldl_cons, hkeep, hput]
      exact Function.update_same _ _ _
    have hrec := ih hrest (sf.put c) f (by rw [hp]; omega) (by omega)
    rw [hp] at hrec
    rw [cstrAt, hval, if_neg hc]
    rw [List.cons_append, List.foldl_cons, hrec]

theorem digitChar_isDigit : ∀ d, d < 10 → (Nat.digitChar d).isDigit = true := by
  decide

theorem toDigitsCore_isDigit (fuel : Nat) :
    ∀ (n : Nat) (ds : List Char), (∀ c ∈ ds, c.isDigit = true) →
      ∀ c ∈ Nat.toDigitsCore 10 fuel n ds, c.isDigit = true := by
  induction fuel with
  | zero =>
    intro n ds h c hc
    exact h c hc
  | succ f ih =>
    intro n ds h c hc
    have hd : ∀ x ∈ Nat.digitChar (n % 10) :: ds, x.isDigit = true := by
      intro x hx
      rcases List.mem_cons.1 hx with hx | hx
      · rw [hx]
        exact digitChar_isDigit _ (Nat.mod_lt _ (by norm_num))
      · exact h x hx
    simp only [Nat.toDigitsCore] at hc
    split at hc
    · exact hd c hc
    · exact ih _ _ hd c hc

theorem decimal_isDigit (n : Nat) : ∀ c ∈ decimal n, c.isDigit = true :=
  toDigitsCore_isDigit _ n [] (fun _ h => absurd h (List.not_mem_nil _))

theorem toDigitsCore_length (fuel : Nat) :
    ∀ (k n : Nat) (ds : List Char), n < 10 ^ (k + 1) →
      (Nat.toDigitsCore 10 fuel n ds).length ≤ ds.length + (k + 1) := by
  induction fuel with
  | zero =>
    intro k n ds _
    simp [Nat.toDigitsCore]
  | succ f ih =>
    intro k n ds h
    simp only [Nat.toDigitsCore]
    split
    · simp
    · rename_i hne
      cases k with
      | zero =>
        exfalso
        apply hne
        have : n < 10 := by simpa using h
        omega
      | succ j =>
        have hq : n / 10 < 10 ^ (j + 1) := by
          apply (Nat.div_lt_iff_lt_mul (by norm_num)).2
          rw [Nat.pow_succ] at h
          exact h
        have := ih j (n / 10) (Nat.digitChar (n % 10) :: ds) hq
        simp only [List.length_cons] at this
        omega

theorem decimal_length_le (n : Nat) (h : n < 2 ^ 64) : (decimal n).length ≤ 20 := by
  have := toDigitsCore_length (n + 1) 19 n [] (Nat.lt_trans h (by norm_num))
  simpa [decimal, Nat.toDigits] using this

theorem decimal_ne_nil (n : Nat) : decimal n ≠ [] := by
  have h : ∀ (fuel m : Nat) (ds : List Char), ds ≠ [] → Nat.toDigitsCore 10 fuel m ds ≠ [] := by
    intro fuel
    induction fuel with
    | zero => intro m ds h; exact h
    | succ f ih =>
      intro m ds _
      simp only [Nat.toDigitsCore]
      split
      · simp
      · exact ih _ _ (by simp)
  show Nat.toDigitsCore 10 (n + 1) n [] ≠ []
  simp only [Nat.toDigitsCore]
  split
  · simp
  · exact h _ _ _ (by simp)

theorem NUL_not_digit : isdigit NUL = false := by decide

theorem loop_eq_foldl_put (rest : List Char) (hd : ∀ c ∈ rest, c.isDigit = true) :
    ∀ (pre : List Char) (fuel : Nat) (sf : sformatter), rest.length ≤ fuel →
      BytesStr.loop (pre ++ rest ++ [NUL]) (pre.length + rest.length) fuel pre.length sf
        = (commaGroup rest).foldl sformatter.put sf := by
  induction rest with
  | nil =>
    intro pre fuel sf _
    cases fuel with
    | zero => rfl
    | succ f => simp [BytesStr.loop, commaGroup]
  | cons c r ih =>
    intro pre fuel sf hf
    obtain ⟨f, rfl⟩ : ∃ f, fuel = f + 1 := ⟨fuel - 1, by simp at hf; omega⟩
    have hc : isdigit c = true := hd c (List.mem_cons_self _ _)
    have hr : ∀ x ∈ r, x.isDigit = true := fun x hx => hd x (List.mem_cons_of_mem _ hx)
    have hq : pre ++ c :: r ++ [NUL] = pre ++ (c :: (r ++ [NUL])) := by simp
    have hlt : pre.length < pre.length + (c :: r).length := by simp
    have hcur : (pre ++ c :: r ++ [NUL]).getD pre.length NUL = c := by
      rw [hq, List.getD_append_right _ _ _ _ (Nat.le_refl _)]
      simp
    have hnext : isdigit ((pre ++ c :: r ++ [NUL]).getD (pre.length + 1) NUL)
        = decide (r ≠ []) := by
      rw [hq, List.getD_append_right _ _ _ _ (by omega)]
      cases r with
      | nil => simp [NUL_not_digit]
      | cons x xs =>
        have hx : isdigit x = true := hr x (List.mem_cons_self _ _)
        simp [hx]
    have hdist : pre.length + (c :: r).length - pre.length - 1 = r.length := by
      simp
    have hrec := ih hr (pre ++ [c]) f
    have hp : pre ++ c :: r ++ [NUL] = pre ++ [c] ++ r ++ [NUL] := by simp
    have hl : pre.length + (c :: r).length = (pre ++ [c]).length + r.length := by
      simp; omega
    have hi : pre.length + 1 = (pre ++ [c]).length := by simp
    rw [BytesStr.loop, if_pos hlt]
    simp only [hcur, hnext, hdist, hc, Bool.and_true]
    rw [hp, hl, hi]
    by_cases hcomma : r.length % 3 = 0 ∧ r ≠ []
    · have hb : (r.length % 3 == 0 && decide (r ≠ [])) = true := by
        simp [hcomma.1, hcomma.2]
      have e : commaGroup (c :: r) = c :: ',' :: commaGroup r := if_pos hcomma
      rw [hb, if_pos rfl, hrec _ (by simp at hf; omega), e, List.foldl_cons, List.foldl_cons]
    · have hb : (r.length % 3 == 0 && decide (r ≠ [])) = false := by
        rcases not_and_or.1 hcomma with h | h
        · simp [h]
        · simp [not_not.1 h]
      have e : commaGroup (c :: r) = c :: commaGroup r := if_neg hcomma
      rw [hb, hrec _ (by simp at hf; omega), e, List.foldl_cons]
      rfl

/-- The final state of `BytesStr`: the grouped text, ` B` and `NUL`, put in order. -/
theorem BytesStr_eq_foldl_put (sf : sformatter) (bytes : Nat) :
    BytesStr sf bytes
      = ((commaGroup (decimal bytes) ++ [' ', 'B'] ++ [NUL]).foldl sformatter.put sf, sf.pos) := by
  have h := loop_eq_foldl_put (decimal bytes) (decimal_isDigit bytes) [] (decimal bytes).length sf
    (Nat.le_refl _)
  simp only [List.nil_append, List.length_nil, Nat.zero_add] at h
  simp only [BytesStr, h, sformatter.ptr, List.foldl_append, List.foldl_cons, List.foldl_nil]

/-- The shape of the grouped text: a first group of one to three digits, then groups
of exactly three, a comma before each of them. -/
theorem commaGroup_shape (ds : List Char) (hne : ds ≠ []) :
    ∃ (g0 : List Char) (gs : List (List Char)),
      commaGroup ds = g0 ++ (gs.map (fun g => ',' :: g)).flatten ∧
      g0 ++ gs.flatten = ds ∧ 1 ≤ g0.length ∧ g0.length ≤ 3 ∧ (∀ g ∈ gs, g.length = 3) ∧
      ds.length = g0.length + 3 * gs.length := by
  induction ds with
  | nil => exact absurd rfl hne
  | cons c r ih =>
    by_cases hr : r = []
    · subst hr
      exact ⟨[c], [], by simp [commaGroup], by simp, by simp, by simp, by simp, by simp⟩
    · obtain ⟨g0, gs, h1, h2, h3, h4, h5, h6⟩ := ih hr
      by_cases hm : r.length % 3 = 0
      · have hg : g0.length = 3 := by omega
        refine ⟨[c], g0 :: gs, ?_, ?_, by simp, by simp, ?_, ?_⟩
        · simp [commaGroup, hm, hr, h1]
        · simp [h2]
        · intro g hgm
          rcases List.mem_cons.1 hgm with h | h
          · rw [h]; exact hg
          · exact h5 g h
        · simp only [List.length_cons, List.length_nil]
          omega
      · refine ⟨c :: g0, gs, ?_, ?_, by simp, ?_, h5, ?_⟩
        · simp [commaGroup, hm, h1]
        · simp [h2]
        · simp only [List.length_cons]
          omega
        · simp only [List.length_cons]
          omega

theorem flatten_commas_length (gs : List (List Char)) (h : ∀ g ∈ gs, g.length = 3) :
    ((gs.map (fun g => ',' :: g)).flatten).length = 4 * gs.length := by
  induction gs with
  | nil => rfl
  | cons g rest ih =>
    have hg := h g (List.mem_cons_self _ _)
    have hrest := ih (fun x hx => h x (List.mem_cons_of_mem _ hx))
    simp only [List.map_cons, List.flatten_cons, List.length_append, List.length_cons, hrest, hg]
    omega

theorem commaGroup_length_le (ds : List Char) (h : ds.length ≤ 20) :
    (commaGroup ds).length ≤ 26 := by
  by_cases hne : ds = []
  · subst hne
    simp [commaGroup]
  · obtain ⟨g0, gs, h1, _, h3, _, h5, h6⟩ := commaGroup_shape ds hne
    rw [h1, List.length_append, flatten_commas_length gs h5]
    omega

theorem commaGroup_mem (ds : List Char) : ∀ c ∈ commaGroup ds, c ∈ ds ∨ c = ',' := by
  induction ds with
  | nil => intro c hc; simp [commaGroup] at hc
  | cons x r ih =>
    intro c hc
    simp only [commaGroup] at hc
    split at hc
    · rcases List.mem_cons.1 hc with h | h
      · exact Or.inl (h ▸ List.mem_cons_self _ _)
      · rcases List.mem_cons.1 h with h | h
        · exact Or.inr h
        · exact (ih c h).imp (List.mem_cons_of_mem _) id
    · rcases List.mem_cons.1 hc with h | h
      · exact Or.inl (h ▸ List.mem_cons_self _ _)
      · exact (ih c h).imp (List.mem_cons_of_mem _) id

theorem text_ne_NUL (bytes : Nat) :
    ∀ c ∈ commaGroup (decimal bytes) ++ [' ', 'B'], c ≠ NUL := by
  intro c hc
  rcases List.mem_append.1 hc with h | h
  · rcases commaGroup_mem _ c h with h | h
    · intro hn
      have := decimal_isDigit bytes c h
      rw [hn] at this
      exact absurd this (by decide)
    · rw [h]; decide
  · simp only [List.mem_cons, List.mem_singleton, List.not_mem_nil, or_false] at h
    rcases h with h | h <;> (rw [h]; decide)

/-- With room for the text and its terminator, the returned pointer addresses it. -/
theorem BytesStr_text_of_room (sf : sformatter) (bytes : Nat)
    (hroom : sf.pos + ((commaGroup (decimal bytes)).length + 3) < bufSize) :
    BytesStr.text sf bytes = commaGroup (decimal bytes) ++ [' ', 'B'] := by
  unfold BytesStr.text
  rw [BytesStr_eq_foldl_put]
  apply cstrAt_foldl_put _ (text_ne_NUL bytes) sf
  · simp only [List.length_append, List.length_cons, List.length_nil]
    omega
  · simp only [List.length_append, List.length_cons, List.length_nil]
    omega

theorem commaGroup_filter (ds : List Char) (h : ∀ c ∈ ds, c ≠ ',') :
    (commaGroup ds).filter (fun c => c ≠ ',') = ds := by
  induction ds with
  | nil => rfl
  | cons x r ih =>
    have hx : x ≠ ',' := h x (List.mem_cons_self _ _)
    have hr := ih (fun c hc => h c (List.mem_cons_of_mem _ hc))
    by_cases hcomma : r.length % 3 = 0 ∧ r ≠ []
    · have e : commaGroup (x :: r) = x :: ',' :: commaGroup r := if_pos hcomma
      rw [e, List.filter_cons_of_pos (by simpa using hx),
        List.filter_cons_of_neg (by simp), hr]
    · have e : commaGroup (x :: r) = x :: commaGroup r := if_neg hcomma
      rw [e, List.filter_cons_of_pos (by simpa using hx), hr]

theorem commaGroup_head_last (ds : List Char) :
    (commaGroup ds).head? = ds.head? ∧ (commaGroup ds).getLast? = ds.getLast? := by
  induction ds with
  | nil => exact ⟨rfl, rfl⟩
  | cons x r ih =>
    by_cases hcomma : r.length % 3 = 0 ∧ r ≠ []
    · have e : commaGroup (x :: r) = x :: ',' :: commaGroup r := if_pos hcomma
      obtain ⟨y, ys, hy⟩ := List.exists_cons_of_ne_nil hcomma.2
      have hne : commaGroup r ≠ [] := by
        rw [hy]
        unfold commaGroup
        split <;> simp
      obtain ⟨z, zs, hz⟩ := List.exists_cons_of_ne_nil hne
      refine ⟨by rw [e]; rfl, ?_⟩
      rw [e, hz, List.getLast?_cons_cons, List.getLast?_cons_cons, ← hz, ih.2, hy,
        List.getLast?_cons_cons]
    · have e : commaGroup (x :: r) = x :: commaGroup r := if_neg hcomma
      refine ⟨by rw [e]; rfl, ?_⟩
      rw [e]
      cases r with
      | nil => rfl
      | cons y ys =>
        have hne : commaGroup (y :: ys) ≠ [] := by
          unfold commaGroup
          split <;> simp
        obtain ⟨z, zs, hz⟩ := List.exists_cons_of_ne_nil hne
        rw [hz, List.getLast?_cons_cons, ← hz, ih.2, List.getLast?_cons_cons]

theorem digit_ne_comma (c : Char) (h : c.isDigit = true) : c ≠ ',' := by
  intro hc
  rw [hc] at h
  exact absurd h (by decide)

set_option maxRecDepth 100000 in
/-- C9: for every 64-bit `n` and every formatter state with room for the text (29
characters suffice), the C string that `BytesStr(n)` returns is the decimal digits of
`n` in groups, a first group of one to three digits and then groups of exactly three
with a comma before each, followed by ` B`; it neither starts nor ends its digits
with a comma, and without the commas it is the decimal representation of `n` and
` B`. 1234567 gives `1,234,567 B`, 12345 gives `12,345 B`, 999 gives `999 B`, 0 gives
`0 B`. -/
theorem BytesStr_comma_grouped (sf : sformatter) (bytes : Nat) (hb : bytes < 2 ^ 64)
    (hroom : sf.pos + 29 < bufSize) :
    (BytesStr sf bytes).2 = sf.ptr ∧
    (∃ (g0 : List Char) (gs : List (List Char)),
      BytesStr.text sf bytes = g0 ++ (gs.map (fun g => ',' :: g)).flatten ++ [' ', 'B'] ∧
      g0 ++ gs.flatten = decimal bytes ∧ 1 ≤ g0.length ∧ g0.length ≤ 3 ∧
      (∀ g ∈ gs, g.length = 3)) ∧
    (∀ c ∈ decimal bytes, c.isDigit = true) ∧
    (BytesStr.text sf bytes).filter (fun c => c ≠ ',') = decimal bytes ++ [' ', 'B'] ∧
    (BytesStr.text sf bytes).head? = (decimal bytes).head? ∧
    (BytesStr.text sf bytes).dropLast.dropLast.getLast? = (decimal bytes).getLast? ∧
    BytesStr.text {} 1234567 = "1,234,567 B".toList ∧
    BytesStr.text {} 12345 = "12,345 B".toList ∧
    BytesStr.text {} 999 = "999 B".toList ∧
    BytesStr.text {} 0 = "0 B".toList ∧
    BytesStr.text {} 18446744073709551615 = "18,446,744,073,709,551,615 B".toList := by
  have hlen := commaGroup_length_le _ (decimal_length_le bytes hb)
  have htext : BytesStr.text sf bytes = commaGroup (decimal bytes) ++ [' ', 'B'] :=
    BytesStr_text_of_room sf bytes (by omega)
  have hdig := decimal_isDigit bytes
  have hne := decimal_ne_nil bytes
  obtain ⟨g0, gs, h1, h2, h3, h4, h5, _⟩ := commaGroup_shape (decimal bytes) hne
  have hcne : commaGroup (decimal bytes) ≠ [] := by
    rw [h1]
    intro h0
    have := congrArg List.length h0
    simp only [List.length_append, List.length_nil] at this
    omega
  refine ⟨by rw [BytesStr_eq_foldl_put]; rfl, ⟨g0, gs, by rw [htext, h1], h2, h3, h4, h5⟩,
    hdig, ?_, ?_, ?_, by decide, by decide, by decide, by decide, by decide⟩
  · rw [htext, List.filter_append,
      commaGroup_filter _ (fun c hc => digit_ne_comma c (hdig c hc))]
    rfl
  · rw [htext, List.head?_append_of_ne_nil _ hcne, (commaGroup_head_last _).1]
  · have hd : (commaGroup (decimal bytes) ++ [' ', 'B']).dropLast.dropLast
        = commaGroup (decimal bytes) := by
      have e1 : commaGroup (decimal bytes) ++ [' ', 'B']
          = (commaGroup (decimal bytes) ++ [' ']) ++ ['B'] := by simp
      rw [e1, List.dropLast_concat, List.dropLast_concat]
    rw [htext, hd, (commaGroup_head_last _).2]

theorem BytesStr_comma_grouped_witness :
    ((1234567 : Nat) < 2 ^ 64 ∧ (100 : Nat) + 29 < bufSize) ∧
    BytesStr.text { pos := 100 } 1234567 = "1,234,567 B".toList ∧
    (BytesStr.text { pos := 100 } 1234567).filter (fun c => c ≠ ',')
      = decimal 1234567 ++ [' ', 'B'] ∧
    (BytesStr { pos := 100 } 1234567).2 = 100 :=
  ⟨⟨by decide, by decide⟩, by decide,
   (BytesStr_comma_grouped { pos := 100 } 1234567 (by decide) (by decide)).2.2.2.1,
   (BytesStr_comma_grouped { pos := 100 } 1234567 (by decide) (by decide)).1⟩

/-! ## C10: quotes around arguments -/

/-- C10 on the code: an argument with both surrounding quotes keeps its trailing
quote, because after `argv[i]++` the index `len-1` addresses the terminating `NUL`
and not the last character; so the quoted flag `-walk` is not recognised. An
argument with only a leading or only a trailing quote loses that quote, an unquoted
one is unchanged, and for an empty argument the index `len-1` lies outside the
argument. -/
theorem parseArg_both_quotes_keeps_trailing :
    parseArg ([quote] ++ "abc".toList ++ [quote]) = some ("abc".toList ++ [quote]) ∧
    parseArg ([quote] ++ "-walk".toList ++ [quote]) = some ("-walk".toList ++ [quote]) ∧
    isWalkFlag ([quote] ++ "-walk".toList ++ [quote]) = false ∧
    isWalkFlag "-WALK".toList = true ∧
    parseArg ([quote] ++ "abc".toList) = some "abc".toList ∧
    parseArg ("abc".toList ++ [quote]) = some "abc".toList ∧
    parseArg "abc".toList = some "abc".toList ∧
    parseArg [quote, quote] = some [quote] ∧
    parseArg [quote] = some [] ∧
    parseArg [] = Option.none := by
  decide

/-! ## C11: `size_on_disk` -/

theorem size_on_disk_64 (low high : Nat) (hl : low < 2 ^ 32) (hh : high < 2 ^ 32) :
    size_on_disk 64 low high = high * 2 ^ 32 + low := by
  have hlt : high <<< 32 < 2 ^ 64 := by
    rw [Nat.shiftLeft_eq]
    calc high * 2 ^ 32 < 2 ^ 32 * 2 ^ 32 := Nat.mul_lt_mul_of_pos_right hh (Nat.two_pow_pos 32)
      _ = 2 ^ 64 := by norm_num
  simp only [size_on_disk, if_true, Nat.mod_eq_of_lt hlt]
  rw [Nat.shiftLeft_eq, Nat.mul_comm high (2 ^ 32), ← Nat.mul_add_lt_is_or hl]

/-- C11, as the code has it: `size_on_disk` does not test for failure. On a 64-bit
build its result is `high * 2 ^ 32 + low` for whatever words the query leaves, also
for the failure value `low = 0xFFFFFFFF`, where the result is at least `0xFFFFFFFF`
and not zero; that result is what the walk loop adds to the on-disk totals of an
entry that is not a directory. -/
theorem size_on_disk_propagates (low high : Nat) (hl : low < 2 ^ 32) (hh : high < 2 ^ 32)
    (stats : FileStats) (e : WalkEntry) (hel : e.low < 2 ^ 32) (heh : e.high < 2 ^ 32)
    (hdir : e.is_directory = false) :
    size_on_disk 64 low high = high * 2 ^ 32 + low ∧
    (low = INVALID_FILE_SIZE →
      size_on_disk 64 low high = high * 2 ^ 32 + 0xFFFFFFFF ∧
      0xFFFFFFFF ≤ size_on_disk 64 low high ∧ size_on_disk 64 low high ≠ 0) ∧
    (walkAdd 64 stats e).total.ondisk
      = (stats.total.ondisk + (e.high * 2 ^ 32 + e.low)) % 2 ^ 64 ∧
    (walkAdd 64 stats e).total.count = (stats.total.count + 1) % 2 ^ 64 := by
  have h := size_on_disk_64 low high hl hh
  refine ⟨h, ?_, ?_, ?_⟩
  · intro hf
    rw [h, hf]
    refine ⟨rfl, ?_, ?_⟩ <;> simp only [INVALID_FILE_SIZE] <;> omega
  · simp only [walkAdd, hdir, Bool.not_false, if_true, FileStats.Add, Stats.Add,
      size_on_disk_64 e.low e.high hel heh]
  · simp only [walkAdd, hdir, Bool.not_false, if_true, FileStats.Add, Stats.Add]

theorem size_on_disk_propagates_witness :
    ((1073741824 : Nat) < 2 ^ 32 ∧ (1 : Nat) < 2 ^ 32 ∧ largeEntry.is_directory = false) ∧
    size_on_disk 64 1073741824 1 = 1 * 2 ^ 32 + 1073741824 ∧
    (walkAdd 64 {} largeEntry).total.ondisk = 5368709120 ∧
    (walkAdd 64 {} largeEntry).total.ondisk
      = (0 + (largeEntry.high * 2 ^ 32 + largeEntry.low)) % 2 ^ 64 :=
  ⟨⟨by decide, by decide, rfl⟩,
   (size_on_disk_propagates 1073741824 1 (by decide) (by decide) {} largeEntry
      (by decide) (by decide) rfl).1,
   by decide,
   (size_on_disk_propagates 1073741824 1 (by decide) (by decide) {} largeEntry
      (by decide) (by decide) rfl).2.2.1⟩

/-- C11 fails as stated: for a failed query (`low = 0xFFFFFFFF`, `high` left at 0, or
at any other value such as 7) `size_on_disk` yields the failure value and not 0, and
the walk loop adds 4294967295 bytes to the on-disk total of that one file. -/
theorem size_on_disk_failure_not_zero :
    size_on_disk 64 INVALID_FILE_SIZE 0 = 4294967295 ∧
    size_on_disk 64 INVALID_FILE_SIZE 0 ≠ 0 ∧
    size_on_disk 64 INVALID_FILE_SIZE 7 = 7 * 2 ^ 32 + 4294967295 ∧
    size_on_disk 32 INVALID_FILE_SIZE 0 = 4294967295 ∧
    (walkAdd 64 {} failedEntry).total.ondisk = 4294967295 ∧
    (walkAdd 64 {} failedEntry).byext.find ".dat" = some ⟨1, 10, 4294967295⟩ := by
  decide

/-! ## C12: `BytesStr` when the formatter wraps -/

theorem bufSize_eq : bufSize = 2097152 := by decide

/-- Consecutive `put` calls with room: position, contents and frame. -/
theorem foldl_put_frame (cs : List Char) :
    ∀ sf : sformatter, sf.pos + cs.length < bufSize →
      (cs.foldl sformatter.put sf).pos = sf.pos + cs.length ∧
      (cs.foldl sformatter.put sf).numWraps = sf.numWraps ∧
      (∀ q, q < sf.pos ∨ sf.pos + cs.length ≤ q → (cs.foldl sformatter.put sf).buf q = sf.buf q) ∧
      (∀ j, j < cs.length → (cs.foldl sformatter.put sf).buf (sf.pos + j) = cs.getD j NUL) := by
  induction cs with
  | nil =>
    intro sf _
    exact ⟨rfl, rfl, fun _ _ => rfl, fun j hj => absurd hj (Nat.not_lt_zero j)⟩
  | cons c rest ih =>
    intro sf h
    simp only [List.length_cons] at h
    have hput := put_of_room sf c (by omega)
    have hp : (sf.put c).pos = sf.pos + 1 := by rw [hput]
    have hw : (sf.put c).numWraps = sf.numWraps := by rw [hput]
    obtain ⟨i1, i2, i3, i4⟩ := ih (sf.put c) (by rw [hp]; omega)
    refine ⟨?_, ?_, ?_, ?_⟩
    · rw [List.foldl_cons, i1, hp, List.length_cons]
      omega
    · rw [List.foldl_cons, i2, hw]
    · intro q hq
      have hne : q ≠ sf.pos := by
        simp only [List.length_cons] at hq
        omega
      rw [List.foldl_cons, i3 q (by rw [hp]; simp only [List.length_cons] at hq; omega), hput]
      exact Function.update_noteq hne _ _
    · intro j hj
      cases j with
      | zero =>
        rw [List.foldl_cons, Nat.add_zero, i3 sf.pos (Or.inl (by rw [hp]; omega)), hput]
        simp
      | succ k =>
        simp only [List.length_cons] at hj
        have := i4 k (by omega)
        rw [hp] at this
        rw [List.foldl_cons, List.getD_cons_succ, ← this]
        congr 1
        omega

/-- Reading a C string whose characters and terminator are known. -/
theorem cstrAt_eq_of (buf : Nat → Char) (a : List Char) (ha : ∀ c ∈ a, c ≠ NUL) :
    ∀ (p fuel : Nat), a.length < fuel → (∀ j, j < a.length → buf (p + j) = a.getD j NUL) →
      buf (p + a.length) = NUL → cstrAt buf fuel p = a := by
  induction a with
  | nil =>
    intro p fuel hf _ hz
    obtain ⟨f, rfl⟩ : ∃ f, fuel = f + 1 := ⟨fuel - 1, by simp at hf; omega⟩
    simp only [List.length_nil, Nat.add_zero] at hz
    simp only [cstrAt, hz, if_true]
  | cons c rest ih =>
    intro p fuel hf hj hz
    obtain ⟨f, rfl⟩ : ∃ f, fuel = f + 1 := ⟨fuel - 1, by simp at hf; omega⟩
    simp only [List.length_cons] at hf hj hz
    have h0 : buf p = c := by
      have := hj 0 (by omega)
      simpa using this
    have hc : c ≠ NUL := ha c (List.mem_cons_self _ _)
    have hrec := ih (fun x hx => ha x (List.mem_cons_of_mem _ hx)) (p + 1) f (by omega)
      (by
        intro j hjl
        have := hj (j + 1) (by omega)
        rw [List.getD_cons_succ] at this
        rw [← this]
        congr 1
        omega)
      (by rw [← hz]; congr 1; omega)
    rw [cstrAt, h0, if_neg hc, hrec]

/-- A `put` at the last index of the buffer wraps: `buf[pos]` and `buf[0]` are set to
`NUL`, the character goes to index 0. -/
theorem put_at_last (sf : sformatter) (c : Char) (h : sf.pos + 1 = bufSize) :
    sf.put c = { buf := Function.update (Function.update (Function.update sf.buf sf.pos NUL)
                   0 NUL) 0 c
                 pos := 1
                 numWraps := (sf.numWraps + 1) % 2 ^ 64 } := by
  have hl : ¬ 1 < sf.left := by
    unfold sformatter.left
    omega
  simp only [sformatter.put, sformatter.check_wrap, hl, if_false, Nat.zero_add]

/-- Reading back a text written by consecutive `put` calls from any position inside
the buffer: what fits before the last index of the buffer, and no more. -/
theorem cstrAt_foldl_put_wrap (body : List Char) (hb : ∀ c ∈ body, c ≠ NUL)
    (sf : sformatter) (hpos : sf.pos < bufSize) (hlen : body.length + 1 < sf.pos) :
    cstrAt ((body ++ [NUL]).foldl sformatter.put sf).buf (bufSize - sf.pos) sf.pos
      = body.take (bufSize - 1 - sf.pos) := by
  by_cases hroom : body.length < bufSize - 1 - sf.pos
  · rw [List.take_of_length_le (Nat.le_of_lt hroom)]
    exact cstrAt_foldl_put body hb sf _ (by omega) (by omega)
  · have hr : bufSize - 1 - sf.pos ≤ body.length := Nat.le_of_not_lt hroom
    generalize hrdef : bufSize - 1 - sf.pos = r at hr
    have hsplit : body ++ [NUL] = body.take r ++ (body.drop r ++ [NUL]) := by
      rw [← List.append_assoc, List.take_append_drop]
    obtain ⟨c, rest, hcr⟩ : ∃ c rest, body.drop r ++ [NUL] = c :: rest :=
      List.exists_cons_of_ne_nil (by simp)
    have hrestlen : rest.length + 1 = body.length - r + 1 := by
      have := congrArg List.length hcr
      simp only [List.length_append, List.length_drop, List.length_singleton,
        List.length_cons, List.length_nil] at this
      omega
    have halen : (body.take r).length = r := by
      rw [List.length_take]
      omega
    have ha : ∀ x ∈ body.take r, x ≠ NUL := fun x hx => hb x (List.mem_of_mem_take hx)
    obtain ⟨p1, _, f1, c1⟩ := foldl_put_frame (body.take r) sf (by rw [halen]; omega)
    rw [halen] at p1 c1
    have hlast : ((body.take r).foldl sformatter.put sf).pos + 1 = bufSize := by
      rw [p1]; omega
    have hS2 := put_at_last ((body.take r).foldl sformatter.put sf) c hlast
    have hS2pos : (((body.take r).foldl sformatter.put sf).put c).pos = 1 := by rw [hS2]
    obtain ⟨_, _, f3, _⟩ := foldl_put_frame rest (((body.take r).foldl sformatter.put sf).put c)
      (by rw [hS2pos, bufSize_eq]; rw [bufSize_eq] at hpos; omega)
    rw [hS2pos] at f3
    have hfinal : (body ++ [NUL]).foldl sformatter.put sf
        = rest.foldl sformatter.put (((body.take r).foldl sformatter.put sf).put c) := by
      rw [hsplit, hcr, List.foldl_append, List.foldl_cons]
    have hfuel : bufSize - sf.pos = r + 1 := by omega
    rw [hfinal, hfuel]
    apply cstrAt_eq_of _ _ ha sf.pos (r + 1) (by rw [halen]; omega)
    · intro j hj
      rw [halen] at hj
      rw [f3 (sf.pos + j) (Or.inr (by omega)), hS2]
      simp only
      rw [Function.update_noteq (by omega), Function.update_noteq (by omega),
        Function.update_noteq (by rw [p1]; omega)]
      exact c1 j hj
    · rw [halen, f3 (sf.pos + r) (Or.inr (by omega)), hS2]
      simp only
      rw [Function.update_noteq (by omega), Function.update_noteq (by omega), p1]
      exact Function.update_same _ _ _

/-- The C string that `BytesStr` returns, for every position of the formatter: the
part of the text that fits before the last index of the buffer. -/
theorem BytesStr_text_take (sf : sformatter) (bytes : Nat) (hb : bytes < 2 ^ 64)
    (hpos : sf.pos ≤ bufSize) :
    BytesStr.text sf bytes
      = (commaGroup (decimal bytes) ++ [' ', 'B']).take (bufSize - 1 - sf.pos) := by
  have hlen := commaGroup_length_le _ (decimal_length_le bytes hb)
  have hbody : (commaGroup (decimal bytes) ++ [' ', 'B']).length ≤ 28 := by
    simp only [List.length_append, List.length_cons, List.length_nil]
    omega
  by_cases hend : sf.pos = bufSize
  · have h0 : bufSize - 1 - sf.pos = 0 := by omega
    have h1 : bufSize - (BytesStr sf bytes).2 = 0 := by
      rw [BytesStr_eq_foldl_put]
      simp only
      omega
    unfold BytesStr.text
    rw [h0, h1, List.take_zero]
    rfl
  · by_cases hlow : sf.pos ≤ 29
    · rw [BytesStr_text_of_room sf bytes (by rw [bufSize_eq]; omega),
        List.take_of_length_le (by rw [bufSize_eq]; omega)]
    · unfold BytesStr.text
      rw [BytesStr_eq_foldl_put]
      exact cstrAt_foldl_put_wrap _ (text_ne_NUL bytes) sf (by omega) (by omega)

/-- Every position inside the buffer is reached by calls of `sformat_put(0)`, with the
buffer still all `NUL`. -/
theorem afterPuts_eq (k : Nat) (h : k < bufSize) : afterPuts k = { pos := k } := by
  induction k with
  | zero => rfl
  | succ n ih =>
    have hn := ih (by omega)
    have hstep : afterPuts (n + 1) = (afterPuts n).put NUL := by
      unfold afterPuts
      rw [List.replicate_succ', List.foldl_append]
      rfl
    rw [hstep, hn, put_of_room _ _ (by show n + 1 < bufSize; exact h)]
    have hu : Function.update (fun _ : Nat => NUL) n NUL = fun _ => NUL := by
      funext q
      by_cases hq : q = n
      · rw [hq, Function.update_same]
      · rw [Function.update_noteq hq]
    show ({ buf := Function.update (fun _ => NUL) n NUL, pos := n + 1, numWraps := 0 }
      : sformatter) = _
    rw [hu]

/-- A `vformat` whose text ends exactly at the end of the buffer does not wrap and
leaves `pos == sizeof(buf)`. -/
theorem vformat_pos_at_end (sf : sformatter) (out : List Char)
    (h : sf.pos + out.length + 1 = bufSize) : (sf.vformat out).1.pos = bufSize := by
  have hl : out.length < bufSize - sf.pos := by omega
  simp only [sformatter.vformat, sformatter.check_wrap, sformatter.left, hl, if_true,
    Bool.false_eq_true, if_false]
  omega

/-- The stores of `put` stay inside the buffer exactly when `pos` is inside it. -/
theorem put_stores_in_bounds_iff (sf : sformatter) :
    (∀ i ∈ sf.put_stores, i < bufSize) ↔ sf.pos < bufSize := by
  have hb := bufSize_eq
  unfold sformatter.put_stores sformatter.check_wrap_stores sformatter.check_wrap
    sformatter.left
  by_cases h : 1 < bufSize - sf.pos
  · simp only [h, if_true, List.nil_append, List.mem_singleton, forall_eq]
  · simp only [h, if_false, List.cons_append, List.nil_append, List.mem_cons,
      List.mem_singleton, List.not_mem_nil, or_false]
    constructor
    · intro hall
      exact hall sf.pos (Or.inl rfl)
    · intro hlt i hi
      rcases hi with hi | hi | hi <;> omega

/-- Every operation of the formatter keeps `pos <= sizeof(buf)`, for a length below
`sizeof(buf) - 1`. -/
theorem operations_keep_pos (sf : sformatter) (c : Char) (count : Nat) (sv : List Char)
    (hpos : sf.pos ≤ bufSize) (hcount : count < bufSize - 1) (hsv : sv.length + 1 < bufSize - 1) :
    (sf.put c).pos < bufSize ∧ (sf.putN c count).pos ≤ bufSize ∧
    (sf.putView sv).pos < bufSize ∧ (sf.print sv).1.pos < bufSize ∧
    (sf.fill c count).1.pos < bufSize ∧ (sf.vformat sv).1.pos ≤ bufSize := by
  have hb := bufSize_eq
  have hput : ∀ s : sformatter, (s.put c).pos < bufSize ∧ (s.put NUL).pos < bufSize := by
    intro s
    simp only [sformatter.put, sformatter.check_wrap, sformatter.left]
    constructor <;> split <;> simp only <;> omega
  refine ⟨(hput sf).1, ?_, ?_, ?_, (hput _).2, ?_⟩
  · simp only [sformatter.putN, sformatter.check_wrap, sformatter.left]
    split
    · exact hpos
    · split <;> simp only <;> omega
  · simp only [sformatter.putView, sformatter.check_wrap, sformatter.left]
    split <;> simp only <;> omega
  · simp only [sformatter.print, sformatter.check_wrap, sformatter.left]
    split <;> simp only <;> omega
  · simp only [sformatter.vformat, sformatter.check_wrap, sformatter.left]
    split <;> simp only [Bool.false_eq_true, if_false, if_true] <;> omega

set_option maxRecDepth 100000 in
/-- C12 on the code: the formatter state with `pos = 2097147`, five characters before
the end of the buffer, is reached by 2097147 calls of `sformat_put(0)`; there
`BytesStr(1234567)` returns the C string `1,23` and not `1,234,567 B`, because the
`put` that wraps stores a `NUL` at the old position and continues at index 0, where
the rest `4,567 B` ends up, while the pointer was taken before the first `put`.
`vformat` in the same situation takes the pointer again after the wrap and returns
the whole text. A `vformat` that ends exactly at the end of the buffer leaves
`pos = sizeof(buf)`, and the next `put` stores to index `sizeof(buf)`, one past the
last element. -/
theorem BytesStr_wrap_truncates :
    afterPuts 2097147 = { pos := 2097147 } ∧
    BytesStr.text { pos := 2097147 } 1234567 = "1,23".toList ∧
    commaGroup (decimal 1234567) ++ [' ', 'B'] = "1,234,567 B".toList ∧
    (BytesStr { pos := 2097147 } 1234567).2 = 2097147 ∧
    (BytesStr { pos := 2097147 } 1234567).1.numWraps = 1 ∧
    cstrAt (BytesStr { pos := 2097147 } 1234567).1.buf 100 0 = "4,567 B".toList ∧
    (({ pos := 2097147 } : sformatter).vformat "1,234,567 B".toList).2 = 0 ∧
    cstrAt (({ pos := 2097147 } : sformatter).vformat "1,234,567 B".toList).1.buf 100 0
      = "1,234,567 B".toList ∧
    (({ pos := 2097150 } : sformatter).vformat "a".toList).1.pos = bufSize ∧
    bufSize ∈ (({ pos := 2097150 } : sformatter).vformat "a".toList).1.put_stores := by
  refine ⟨afterPuts_eq 2097147 (by decide), by decide, by decide, by decide, by decide,
    by decide, by decide, by decide, by decide, by decide⟩

end FileTools
